import Mathlib

/-!
Verification development for a 15-puzzle solver (breadth-first search and two
A* variants over a 4x4 sliding-tile board with weighted move costs).

The board is modelled as a flat list of natural tile values with 0 denoting
the blank; all claims of interest concern boards that are permutations of
0..15, so tile values are naturals (the source language's unbounded integers
never go negative on such boards).  Fallible source operations (functions
that can return `None` or raise on malformed data) are modelled with
`Option`; a `none` result marks a point where the source would raise.
-/

set_option maxHeartbeats 1000000

namespace BPA

/-- `to_2d_array` in the source: converts a 1-dimensional puzzle board to a
2D (list of rows) representation, slicing four entries per row. -/
def to_2d_array (one_d_board : List Nat) : List (List Nat) :=
  (List.range ((one_d_board.length + 4 - 1) / 4)).map
    (fun i => (one_d_board.drop (i * 4)).take 4)

/-- `val_multiplier` in the source: the move-cost multiplier of a tile value.
The blank (0) costs 0, tiles 1-9 cost 1 unit, tiles 10-15 cost 10 units.
The source function has no branch for any other value and returns `None`
there, modelled by `none`. -/
def val_multiplier (val : Nat) : Option Nat :=
  if val = 0 then some 0
  else if 0 < val ∧ val < 10 then some 1
  else if 10 ≤ val ∧ val ≤ 15 then some 10
  else none

/-- The specification's `tile_weight` function, used in the spec-level
restatements of the heuristics and costs: 0 for the blank, 1 for tiles 1-9,
10 for tiles 10-15 (the spec only describes tile values 0..15). -/
def tile_weight (val : Nat) : Nat :=
  if val = 0 then 0 else if val < 10 then 1 else 10

/-- A board is well-formed when it is a permutation of 0..15 (the Board
invariant of the data model: each value 0-15 occurs exactly once). -/
def IsPerm (b : List Nat) : Prop := b.Perm (List.range 16)

/-- The accumulation loop of `estimated_cost_to_goal_h1`: walk the board and
goal boards index-aligned, adding `val_multiplier piece` at every index whose
tile differs from the goal's.  `none` marks positions where the source would
raise: a missing goal index (IndexError) or a multiplier of `None`
(TypeError on addition). -/
def h1Count : List Nat → List Nat → Option Nat
  | [], _ => some 0
  | _ :: _, [] => none
  | p :: bs, q :: gs =>
    if p ≠ q then
      (val_multiplier p).bind (fun m => (h1Count bs gs).map (fun c => c + m))
    else h1Count bs gs

/-- `PuzzleState.estimated_cost_to_goal_h1`: with no goal set it returns 0
(the goal node's own construction); otherwise it sums `val_multiplier` over
the mismatched positions and subtracts 1. -/
def estimated_cost_to_goal_h1 (board : List Nat) : Option (List Nat) → Option Int
  | none => some 0
  | some gb => (h1Count board gb).map (fun c => (c : Int) - 1)

/-- Element access in a 2D board view; `none` where the source's
`board_state[row][col]` would raise IndexError (impossible on 16-cell
boards scanned with row, col < 4). -/
def lookup2d (grid : List (List Nat)) (row col : Nat) : Option Nat :=
  (grid[row]?).bind (fun r => r[col]?)

/-- `PuzzleState.find`: scan rows 0..3 and, within each row, columns 0..3,
returning the first (row, col) whose cell holds `val`; `none` (the source's
implicit `None` fall-through) if the value is absent. -/
def find2d (grid : List (List Nat)) (val : Nat) : Option (Nat × Nat) :=
  ((List.range 4).flatMap (fun r => (List.range 4).map (fun c => (r, c)))).find?
    (fun rc => lookup2d grid rc.1 rc.2 == some val)

/-- One summand of `estimated_cost_to_goal_h2`: locate `piece` on the current
and goal boards and weight the Manhattan distance by `val_multiplier piece`.
`none` marks the source's crash when a `find` comes back `None`. -/
def h2Piece (grid goal_grid : List (List Nat)) (piece : Nat) : Option Int := do
  let cur ← find2d grid piece
  let goal ← find2d goal_grid piece
  let m ← val_multiplier piece
  pure ((m : Int) * (((goal.1 : Int) - (cur.1 : Int)).natAbs + ((goal.2 : Int) - (cur.2 : Int)).natAbs))

/-- The accumulation loop of `estimated_cost_to_goal_h2` over a list of piece
values (the source iterates `range(1, 16)`). -/
def h2Total (grid goal_grid : List (List Nat)) : List Nat → Option Int
  | [] => some 0
  | p :: ps => do
    let d ← h2Piece grid goal_grid p
    let rest ← h2Total grid goal_grid ps
    pure (rest + d)

/-- `PuzzleState.estimated_cost_to_goal_h2`: 0 with no goal set; otherwise
the weighted Manhattan distance summed over piece values 1..15. -/
def estimated_cost_to_goal_h2 (board : List Nat) : Option (List Nat) → Option Int
  | none => some 0
  | some gb => h2Total (to_2d_array board) (to_2d_array gb) (List.range' 1 15)

/-- The `PuzzleState` node of the search: board snapshot (flat and 2D view),
goal reference (modelled by the goal node's board), heuristic values, the
accumulated cost g, derived priorities f1 and f2, tree depth, and the
identifier / parent-identifier pair.  The source uses the runtime object
identity `id(self)` as `id_no`; per the specification it is modelled as an
explicitly supplied fresh counter value. -/
structure PuzzleState where
  parent_id : Option Nat
  id_no : Nat
  board_state_1d : List Nat
  board_state : List (List Nat)
  goal_board : Option (List Nat)
  h1_of_n : Int
  h2_of_n : Int
  g_of_n : Int
  f1_of_n : Int
  f2_of_n : Int
  depth : Nat
deriving DecidableEq

/-- `PuzzleState.__init__`: computes the 2D view and both heuristics against
the (optional) goal and derives f1 = g + h1 and f2 = g + h2.  `none` marks a
construction on which the source's heuristic computation would raise. -/
def mkPuzzleState (board_state_1d : List Nat) (goal_board : Option (List Nat))
    (parent_id : Option Nat) (depth : Nat) (cost_so_far : Int) (id_no : Nat) :
    Option PuzzleState := do
  let h1 ← estimated_cost_to_goal_h1 board_state_1d goal_board
  let h2 ← estimated_cost_to_goal_h2 board_state_1d goal_board
  pure { parent_id := parent_id, id_no := id_no, board_state_1d := board_state_1d,
         board_state := to_2d_array board_state_1d, goal_board := goal_board,
         h1_of_n := h1, h2_of_n := h2, g_of_n := cost_so_far,
         f1_of_n := cost_so_far + h1, f2_of_n := cost_so_far + h2, depth := depth }

/-- `PuzzleState.move_cost`: the weight of the tile currently occupying
`target_pos`, read before any swap.  `none` where the source returns `None`
(the blank tile, value 0) or raises IndexError (position out of range). -/
def PuzzleState.move_cost (s : PuzzleState) (target_pos : Nat) : Option Int :=
  match s.board_state_1d[target_pos]? with
  | none => none
  | some v =>
    if 0 < v ∧ v < 10 then some 1
    else if 10 ≤ v ∧ v ≤ 15 then some 10
    else none

/-- The four sliding directions with the flat-index offsets of the source's
`dirs` dictionary. -/
inductive Direction
  | up
  | down
  | left
  | right
deriving DecidableEq

/-- Flat-index offset of each direction (`dirs` in `PuzzleState.move`). -/
def Direction.offset : Direction → Int
  | .up => -4
  | .right => 1
  | .down => 4
  | .left => -1

/-- `PuzzleState.move`: locate the blank, compute the target index from the
direction offset, charge `move_cost` of the tile at the target (before the
swap), swap blank and target in a copy of the board and construct the child
node with parent = this node, depth + 1 and g + cost.  Negative target
indices follow the source language's wrap-around indexing; `none` marks the
raising paths (no blank present, target index past the end, blank-valued
cost). -/
def PuzzleState.move (s : PuzzleState) (next_id : Nat) (direction : Direction) :
    Option PuzzleState := do
  let zero_pos ← s.board_state_1d.indexOf? 0
  let n : Int := s.board_state_1d.length
  let target : Int := (zero_pos : Int) + direction.offset
  if -n ≤ target ∧ target < n then do
    let target_pos : Nat := (if target < 0 then target + n else target).toNat
    let cost ← s.move_cost target_pos
    let b := s.board_state_1d
    let new_board := (b.set zero_pos (b.getD target_pos 0)).set target_pos (b.getD zero_pos 0)
    mkPuzzleState new_board s.goal_board (some s.id_no) (s.depth + 1) (s.g_of_n + cost) next_id
  else none

/-- The bounds test of `PuzzleState.expand` for the blank at (row, col):
up is legal iff row > 0, down iff row < 3, left iff col > 0, right iff
col < 3. -/
def dirValid (row col : Nat) : Direction → Prop
  | .up => 0 < row
  | .down => row < 3
  | .left => 0 < col
  | .right => col < 3

instance (row col : Nat) (d : Direction) : Decidable (dirValid row col d) := by
  cases d <;> simp only [dirValid] <;> infer_instance

/-- The valid-move list that `PuzzleState.expand` builds for the blank at
(row, col): up, down, left, right in this order, skipping invalid ones. -/
def validMoveList (row col : Nat) : List Direction :=
  (if 0 < row then [Direction.up] else []) ++
  (if row < 3 then [Direction.down] else []) ++
  (if 0 < col then [Direction.left] else []) ++
  (if col < 3 then [Direction.right] else [])

/-- The `list(map(self.move, valid_moves))` step of `expand`: construct one
child per direction, consuming one fresh identifier per child. -/
def movesMap (s : PuzzleState) : Nat → List Direction → Option (List PuzzleState)
  | _, [] => some []
  | nid, d :: ds => do
    let c ← s.move nid d
    let rest ← movesMap s (nid + 1) ds
    pure (c :: rest)

/-- `PuzzleState.expand`: locate the blank in the 2D view, collect the
in-bounds directions in the order up, down, left, right, and build one child
node per direction. -/
def PuzzleState.expand (s : PuzzleState) (next_id : Nat) : Option (List PuzzleState) := do
  let rc ← find2d s.board_state 0
  movesMap s next_id (validMoveList rc.1 rc.2)

/-- The three strategies accepted by `solve`. -/
inductive Method
  | bfs
  | a_star_h1
  | a_star_h2
deriving DecidableEq

/-- The frontier priority key of a freshly expanded node: depth for BFS,
f1 for A* with h1, f2 for A* with h2. -/
def priorityOf (m : Method) (s : PuzzleState) : Int :=
  match m with
  | .bfs => (s.depth : Int)
  | .a_star_h1 => s.f1_of_n
  | .a_star_h2 => s.f2_of_n

/-- A frontier entry: the (priority, identifier, state) triple pushed on the
heap.  Identifiers are unique, so the heap order is the lexicographic order
on (priority, identifier) and the state itself is never compared. -/
abbrev Entry := Int × Nat × PuzzleState

/-- Lexicographic comparison on (priority, identifier), the order realised by
the source's heap of (priority, id, state) triples. -/
def keyLt (a b : Int × Nat) : Bool := a.1 < b.1 || (a.1 == b.1 && a.2 < b.2)

/-- `heappop`: remove and return the least entry of the frontier in the
(priority, identifier) order; `none` on an empty frontier (where the heap
pop raises). -/
def popMin : List Entry → Option (Entry × List Entry)
  | [] => none
  | e :: rest =>
    match popMin rest with
    | none => some (e, [])
    | some (m, rest') =>
      if keyLt (m.1, m.2.1) (e.1, e.2.1) then some (m, e :: rest') else some (e, rest)

/-- `get_parent_state`: linear scan of the closed list for the node whose
identifier equals this node's parent identifier (`none` when absent, and in
particular for the root, whose parent identifier is the `None` sentinel). -/
def get_parent_state (state : PuzzleState) (closed_list : List PuzzleState) :
    Option PuzzleState :=
  closed_list.find? (fun cs => state.parent_id == some cs.id_no)

/-- The walk of `get_state_path`: repeatedly replace the current node by its
parent from the closed list, accumulating the visited nodes end-first, until
a node of depth 0 is reached.  The fuel bounds the source's unbounded while
loop; `none` marks a missing parent (where the source would raise) or fuel
exhaustion, which cannot occur on well-formed parent chains. -/
def pathWalk (closed_list : List PuzzleState) :
    Nat → PuzzleState → List PuzzleState → Option (List PuzzleState)
  | fuel, cur, path =>
    if cur.depth = 0 then some path
    else
      match fuel with
      | 0 => none
      | fuel + 1 =>
        match get_parent_state cur closed_list with
        | none => none
        | some p => pathWalk closed_list fuel p (path ++ [p])

/-- `get_state_path`: the reconstructed solution path in end-to-start order,
obtained by walking parent links from the solved node down to depth 0. -/
def get_state_path (end_state : PuzzleState) (closed_list : List PuzzleState) :
    Option (List PuzzleState) :=
  pathWalk closed_list end_state.depth end_state [end_state]

/-- Outcome data of a successful `solve` run: the end-to-start path, the
count of nodes added to the open list, and the closed list (whose length is
reported as the closed-list count). -/
structure SolveResult where
  path : List PuzzleState
  added_to_open_list : Nat
  closed_list : List PuzzleState
deriving DecidableEq

/-- The raising terminations of the search loop: `popEmpty` is the heap pop
on an exhausted frontier; `stateError` marks the other source-level raises
(heuristic computation or path reconstruction on malformed data), none of
which can occur on permutation boards. -/
inductive SearchError
  | popEmpty
  | stateError
deriving DecidableEq

/-- The mutable state of `solve`'s while loop: open list, closed list, the
added-to-open-list counter, and the next fresh identifier. -/
structure LoopState where
  open_list : List Entry
  closed_list : List PuzzleState
  added_to_open_list : Nat
  next_id : Nat
deriving DecidableEq

/-- The `while not has_solved` loop of `solve`: pop the least frontier entry;
if its board equals the goal board, reconstruct and return the path together
with the counters; otherwise append it to the closed list, expand it, and
push every child with its method-dependent priority.  The fuel models the
unbounded loop: `none` is fuel exhaustion, `some (.error e)` a raising
termination of the source, `some (.ok r)` the solved outcome. -/
def solveLoop (goal_board : List Nat) (method : Method) :
    Nat → LoopState → Option (Except SearchError SolveResult)
  | 0, _ => none
  | fuel + 1, st =>
    match popMin st.open_list with
    | none => some (.error .popEmpty)
    | some (e, rest) =>
      let cur := e.2.2
      if cur.board_state_1d = goal_board then
        match get_state_path cur st.closed_list with
        | none => some (.error .stateError)
        | some path => some (.ok ⟨path, st.added_to_open_list, st.closed_list⟩)
      else
        match cur.expand st.next_id with
        | none => some (.error .stateError)
        | some expansions =>
          solveLoop goal_board method fuel
            { open_list := rest ++ expansions.map (fun ns => (priorityOf method ns, ns.id_no, ns)),
              closed_list := st.closed_list ++ [cur],
              added_to_open_list := st.added_to_open_list + expansions.length,
              next_id := st.next_id + expansions.length }

/-- `solve`: construct the goal node (no goal reference, identifier 0) and
the start node (goal = the goal node, identifier 1), push the start node
with priority 0, and run the search loop with the supplied fuel. -/
def solve (start_board goal_board : List Nat) (method : Method) (fuel : Nat) :
    Option (Except SearchError SolveResult) :=
  match mkPuzzleState goal_board none none 0 0 0 with
  | none => some (.error .stateError)
  | some _ =>
    match mkPuzzleState start_board (some goal_board) none 0 0 1 with
    | none => some (.error .stateError)
    | some start_state =>
      solveLoop goal_board method fuel
        { open_list := [(0, start_state.id_no, start_state)], closed_list := [],
          added_to_open_list := 0, next_id := 2 }

end BPA

namespace BPA

/-! ### Basic facts about permutation boards -/

theorem IsPerm.len16 {b : List Nat} (hb : IsPerm b) : b.length = 16 := by
  simpa using hb.length_eq

theorem IsPerm.nodup {b : List Nat} (hb : IsPerm b) : b.Nodup :=
  hb.nodup_iff.mpr (List.nodup_range 16)

theorem IsPerm.mem_iff {b : List Nat} (hb : IsPerm b) {v : Nat} : v ∈ b ↔ v < 16 := by
  rw [List.Perm.mem_iff hb, List.mem_range]

/-! ### Multiplier and weight -/

theorem val_multiplier_eq {v : Nat} (hv : v < 16) :
    val_multiplier v = some (tile_weight v) := by
  unfold val_multiplier tile_weight
  split_ifs <;> first | rfl | omega

theorem tile_weight_of_ne_zero {v : Nat} (hv : v ≠ 0) :
    tile_weight v = if v < 10 then 1 else 10 := by
  simp [tile_weight, hv]

theorem tile_weight_one_le {v : Nat} (hv : v ≠ 0) : 1 ≤ tile_weight v := by
  rw [tile_weight_of_ne_zero hv]; split_ifs <;> omega

/-! ### The 2D view and the scan of `find` -/

theorem to_2d_array_lookup {b : List Nat} (hlen : b.length = 16) {r c : Nat}
    (hr : r < 4) (hc : c < 4) : lookup2d (to_2d_array b) r c = b[4 * r + c]? := by
  unfold lookup2d to_2d_array
  have h4 : (b.length + 4 - 1) / 4 = 4 := by rw [hlen]
  rw [h4, List.getElem?_map, List.getElem?_range hr]
  show ((b.drop (r * 4)).take 4)[c]? = b[4 * r + c]?
  rw [List.getElem?_take_of_lt hc, List.getElem?_drop]
  congr 1
  omega

theorem find?_congr {α : Type} {p q : α → Bool} :
    ∀ {l : List α}, (∀ a ∈ l, p a = q a) → l.find? p = l.find? q := by
  intro l
  induction l with
  | nil => intro _; rfl
  | cons a l ih =>
    intro h
    have ha := h a (List.mem_cons_self a l)
    by_cases hp : p a
    · rw [List.find?_cons_of_pos _ hp, List.find?_cons_of_pos _ (ha ▸ hp)]
    · rw [List.find?_cons_of_neg _ hp, List.find?_cons_of_neg _ (fun hq => hp (ha ▸ hq)),
        ih (fun x hx => h x (List.mem_cons_of_mem _ hx))]

/-- The row-major scan order of `find2d` enumerates the flat indices 0..15. -/
theorem find2d_scan_order :
    ((List.range 4).flatMap (fun r => (List.range 4).map (fun c => (r, c)))) =
      (List.range 16).map (fun k => (k / 4, k % 4)) := by
  decide

/-- On a 16-cell board, `find2d` is a row-major scan of the flat indices. -/
theorem find2d_eq_scan {b : List Nat} (hlen : b.length = 16) (v : Nat) :
    find2d (to_2d_array b) v =
      ((List.range 16).find? (fun k => b[k]? == some v)).map (fun k => (k / 4, k % 4)) := by
  unfold find2d
  rw [find2d_scan_order, List.find?_map]
  congr 1
  apply find?_congr
  intro k hk
  have hk16 : k < 16 := List.mem_range.mp hk
  have hmod : 4 * (k / 4) + k % 4 = k := by omega
  show (lookup2d (to_2d_array b) (k / 4) (k % 4) == some v) = (b[k]? == some v)
  rw [to_2d_array_lookup hlen (by omega) (by omega), hmod]

theorem scan_finds {b : List Nat} {v : Nat} (k : Nat) (hk : k < 16) (hbk : b[k]? = some v) :
    ∃ j, (List.range 16).find? (fun i => b[i]? == some v) = some j ∧ j < 16 ∧ b[j]? = some v := by
  cases hfind : (List.range 16).find? (fun i => b[i]? == some v) with
  | none =>
    rw [List.find?_eq_none] at hfind
    have := hfind k (List.mem_range.mpr hk)
    simp only [beq_iff_eq] at this
    exact absurd hbk this
  | some j =>
    refine ⟨j, rfl, List.mem_range.mp (List.mem_of_find?_eq_some hfind), ?_⟩
    have := List.find?_some hfind
    simpa using this

/-- `PuzzleState.find` on a permutation board: every value 0..15 is found, at
the coordinates of its unique flat position. -/
theorem find2d_perm {b : List Nat} (hb : IsPerm b) {v : Nat} (hv : v < 16) :
    find2d (to_2d_array b) v = some (b.indexOf v / 4, b.indexOf v % 4) ∧
      b.indexOf v < 16 ∧ b[b.indexOf v]? = some v := by
  have hmem : v ∈ b := hb.mem_iff.mpr hv
  have hidx : b.indexOf v < b.length := List.indexOf_lt_length.mpr hmem
  have hidx16 : b.indexOf v < 16 := hb.len16 ▸ hidx
  have hbidx : b[b.indexOf v]? = some v := by
    rw [List.getElem?_eq_getElem hidx, List.getElem_indexOf hidx]
  obtain ⟨j, hj, hj16, hbj⟩ := scan_finds (b.indexOf v) hidx16 hbidx
  have hjeq : j = b.indexOf v := by
    obtain ⟨hjlen, hbj2⟩ := List.getElem?_eq_some_iff.mp hbj
    obtain ⟨hilen, hbi2⟩ := List.getElem?_eq_some_iff.mp hbidx
    exact (List.Nodup.getElem_inj_iff hb.nodup).mp (by rw [hbj2, hbi2])
  refine ⟨?_, hidx16, hbidx⟩
  rw [find2d_eq_scan hb.len16, hj, hjeq]
  rfl

end BPA

namespace BPA

/-! ### The h1 heuristic -/

theorem h1Count_eq_sum : ∀ {b g : List Nat}, b.length = g.length → (∀ x ∈ b, x < 16) →
    h1Count b g = some (∑ i in Finset.range b.length,
      if b.getD i 0 ≠ g.getD i 0 then tile_weight (b.getD i 0) else 0)
  | [], [], _, _ => by simp [h1Count]
  | [], _ :: _, h, _ => by simp at h
  | _ :: _, [], h, _ => by simp at h
  | p :: bs, q :: gs, h, hx => by
    have hlen : bs.length = gs.length := by simpa using h
    have hx2 : ∀ x ∈ bs, x < 16 := fun x hxx => hx x (List.mem_cons_of_mem _ hxx)
    have hp : p < 16 := hx p (List.mem_cons_self _ _)
    have ih := h1Count_eq_sum hlen hx2
    have hsum : (∑ i in Finset.range (p :: bs).length,
        if (p :: bs).getD i 0 ≠ (q :: gs).getD i 0 then tile_weight ((p :: bs).getD i 0) else 0)
        = (∑ i in Finset.range bs.length,
            if bs.getD i 0 ≠ gs.getD i 0 then tile_weight (bs.getD i 0) else 0)
          + (if p ≠ q then tile_weight p else 0) := by
      rw [List.length_cons, Finset.sum_range_succ']
      simp
    rw [hsum]
    unfold h1Count
    by_cases hpq : p = q
    · simp [hpq, ih]
    · rw [if_pos hpq, val_multiplier_eq hp, ih]
      simp [hpq]

theorem h1Count_self : ∀ (b : List Nat), h1Count b b = some 0
  | [] => rfl
  | p :: bs => by
    unfold h1Count
    simp [h1Count_self bs]

theorem sum_getD_eq (b : List Nat) : b.sum = ∑ i in Finset.range b.length, b.getD i 0 := by
  induction b with
  | nil => simp
  | cons p bs ih =>
    rw [List.length_cons, Finset.sum_range_succ']
    simp [ih, Nat.add_comm]

/-- Two permutation boards that agree everywhere except possibly at one
index agree there as well (the remaining value is forced, both boards being
rearrangements of the same multiset). -/
theorem eq_getD_of_agree_except {b g : List Nat} (hb : IsPerm b) (hg : IsPerm g) {i : Nat}
    (hi : i < 16) (hagree : ∀ j, j < 16 → j ≠ i → b.getD j 0 = g.getD j 0) :
    b.getD i 0 = g.getD i 0 := by
  have hsum : b.sum = g.sum := (hb.trans hg.symm).sum_eq
  rw [sum_getD_eq, sum_getD_eq, hb.len16, hg.len16] at hsum
  rw [← Finset.sum_erase_add _ _ (Finset.mem_range.mpr hi),
    ← Finset.sum_erase_add _ _ (Finset.mem_range.mpr hi)] at hsum
  have heq : ∑ j in (Finset.range 16).erase i, b.getD j 0
      = ∑ j in (Finset.range 16).erase i, g.getD j 0 :=
    Finset.sum_congr rfl (fun j hj =>
      hagree j (Finset.mem_range.mp (Finset.mem_of_mem_erase hj)) (Finset.ne_of_mem_erase hj))
  omega

/-- Two distinct permutation boards differ at some position holding a
non-blank tile of the first board. -/
theorem exists_diff_ne_zero {b g : List Nat} (hb : IsPerm b) (hg : IsPerm g) (hne : b ≠ g) :
    ∃ i, i < 16 ∧ b.getD i 0 ≠ g.getD i 0 ∧ b.getD i 0 ≠ 0 := by
  have hlen : b.length = g.length := by rw [hb.len16, hg.len16]
  have hex : ∃ i, i < 16 ∧ b.getD i 0 ≠ g.getD i 0 := by
    by_contra hall
    push_neg at hall
    apply hne
    apply List.ext_getElem hlen
    intro j hjb hjg
    have h16 : j < 16 := hb.len16 ▸ hjb
    have := hall j h16
    rwa [List.getD_eq_getElem b 0 hjb, List.getD_eq_getElem g 0 hjg] at this
  obtain ⟨i, hi, hdiff⟩ := hex
  by_cases hz : b.getD i 0 = 0
  · by_cases h2 : ∃ j, j < 16 ∧ j ≠ i ∧ b.getD j 0 ≠ g.getD j 0
    · obtain ⟨j, hj, hji, hdj⟩ := h2
      refine ⟨j, hj, hdj, fun hzj => hji ?_⟩
      have hjb : j < b.length := hb.len16 ▸ hj
      have hib : i < b.length := hb.len16 ▸ hi
      apply (List.Nodup.getElem_inj_iff hb.nodup).mp
      rw [← List.getD_eq_getElem b 0 hjb, ← List.getD_eq_getElem b 0 hib, hzj, hz]
    · push_neg at h2
      exact absurd (eq_getD_of_agree_except hb hg hi
        (fun j hj hji => by
          by_contra hc
          exact hc (h2 j hj hji))) hdiff
  · exact ⟨i, hi, hdiff, hz⟩

end BPA

namespace BPA

/-! ### The h2 heuristic -/

theorem h2Piece_spec {b g : List Nat} (hb : IsPerm b) (hg : IsPerm g) {v : Nat} (hv : v < 16) :
    h2Piece (to_2d_array b) (to_2d_array g) v =
      some ((tile_weight v : Int) *
        (((g.indexOf v / 4 : Nat) - (b.indexOf v / 4 : Nat) : Int).natAbs +
         ((g.indexOf v % 4 : Nat) - (b.indexOf v % 4 : Nat) : Int).natAbs)) := by
  obtain ⟨hf1, -, -⟩ := find2d_perm hb hv
  obtain ⟨hf2, -, -⟩ := find2d_perm hg hv
  unfold h2Piece
  rw [hf1, hf2, val_multiplier_eq hv]
  rfl

theorem h2Total_eq_sum {b g : List Nat} (hb : IsPerm b) (hg : IsPerm g) :
    ∀ (l : List Nat), (∀ x ∈ l, x < 16) →
    h2Total (to_2d_array b) (to_2d_array g) l =
      some ((l.map (fun v => (tile_weight v : Int) *
        (((g.indexOf v / 4 : Nat) - (b.indexOf v / 4 : Nat) : Int).natAbs +
         ((g.indexOf v % 4 : Nat) - (b.indexOf v % 4 : Nat) : Int).natAbs))).sum)
  | [], _ => by simp [h2Total]
  | p :: ps, hx => by
    unfold h2Total
    rw [h2Piece_spec hb hg (hx p (List.mem_cons_self _ _)),
      h2Total_eq_sum hb hg ps (fun x hxx => hx x (List.mem_cons_of_mem _ hxx))]
    simp [Int.add_comm]

theorem sum_map_list_range {M : Type} [AddCommMonoid M] (f : Nat → M) :
    ∀ n, ((List.range n).map f).sum = ∑ i in Finset.range n, f i
  | 0 => by simp
  | n + 1 => by
    rw [List.range_succ, List.map_append, List.sum_append, Finset.sum_range_succ,
      sum_map_list_range f n]
    simp

/-- Bridge between the source's iteration order over tile values 1..15 and
the interval sum of the specification. -/
theorem sum_range_one_15 (f : Nat → Int) :
    ((List.range' 1 15).map f).sum = ∑ v in Finset.Icc 1 15, f v := by
  have h1 : List.range 16 = 0 :: List.range' 1 15 := by
    rw [List.range_eq_range']
    rfl
  have h2 : Finset.Icc (1 : Nat) 15 = (Finset.range 16).erase 0 := by decide
  have h3 : ((List.range 16).map f).sum = ∑ i in Finset.range 16, f i := sum_map_list_range f 16
  rw [h1, List.map_cons, List.sum_cons,
    ← Finset.sum_erase_add _ f (by simp : (0 : Nat) ∈ Finset.range 16)] at h3
  rw [h2]
  omega

/-! ### Node construction -/

/-- The goal reference of a node is either absent (only the goal node's own
construction) or a permutation board, as in every node the search builds. -/
def GoalOk (s : PuzzleState) : Prop :=
  s.goal_board = none ∨ ∃ g, s.goal_board = some g ∧ IsPerm g

theorem mk_eq {b : List Nat} {gob : Option (List Nat)} {p : Option Nat} {d : Nat} {c : Int}
    {i : Nat} {h1v h2v : Int}
    (hh1 : estimated_cost_to_goal_h1 b gob = some h1v)
    (hh2 : estimated_cost_to_goal_h2 b gob = some h2v) :
    mkPuzzleState b gob p d c i = some
      { parent_id := p, id_no := i, board_state_1d := b, board_state := to_2d_array b,
        goal_board := gob, h1_of_n := h1v, h2_of_n := h2v, g_of_n := c,
        f1_of_n := c + h1v, f2_of_n := c + h2v, depth := d } := by
  unfold mkPuzzleState
  rw [hh1, hh2]
  rfl

theorem est_h1_some {b : List Nat} {gob : Option (List Nat)} (hb : ∀ x ∈ b, x < 16)
    (hg : gob = none ∨ ∃ g, gob = some g ∧ b.length = g.length) :
    ∃ v, estimated_cost_to_goal_h1 b gob = some v := by
  rcases hg with hnone | ⟨g, hsome, hlen⟩
  · exact ⟨0, hnone ▸ rfl⟩
  · subst hsome
    apply Option.isSome_iff_exists.mp
    have heq : estimated_cost_to_goal_h1 b (some g)
        = (h1Count b g).map (fun c => (c : Int) - 1) := rfl
    rw [heq, h1Count_eq_sum hlen hb]
    rfl

theorem est_h2_some {b : List Nat} {gob : Option (List Nat)} (hb : IsPerm b)
    (hg : gob = none ∨ ∃ g, gob = some g ∧ IsPerm g) :
    ∃ v, estimated_cost_to_goal_h2 b gob = some v := by
  rcases hg with hnone | ⟨g, hsome, hgp⟩
  · exact ⟨0, hnone ▸ rfl⟩
  · subst hsome
    apply Option.isSome_iff_exists.mp
    have heq : estimated_cost_to_goal_h2 b (some g)
        = h2Total (to_2d_array b) (to_2d_array g) (List.range' 1 15) := rfl
    rw [heq, h2Total_eq_sum hb hgp (List.range' 1 15) (fun x hx => by
      have := List.mem_range'_1.mp hx
      omega)]
    rfl

theorem mk_some {b : List Nat} (hb : IsPerm b) {gob : Option (List Nat)}
    (hg : gob = none ∨ ∃ g, gob = some g ∧ IsPerm g) (p : Option Nat) (d : Nat) (c : Int)
    (i : Nat) :
    ∃ s, mkPuzzleState b gob p d c i = some s ∧ s.board_state_1d = b ∧
      s.board_state = to_2d_array b ∧ s.goal_board = gob ∧ s.parent_id = p ∧
      s.depth = d ∧ s.g_of_n = c ∧ s.id_no = i := by
  have hxb : ∀ x ∈ b, x < 16 := fun x hx => hb.mem_iff.mp hx
  have hg1 : gob = none ∨ ∃ g, gob = some g ∧ b.length = g.length := by
    rcases hg with hnone | ⟨g, hsome, hgp⟩
    · exact Or.inl hnone
    · exact Or.inr ⟨g, hsome, by rw [hb.len16, hgp.len16]⟩
  obtain ⟨h1v, hh1⟩ := est_h1_some hxb hg1
  obtain ⟨h2v, hh2⟩ := est_h2_some hb hg
  exact ⟨_, mk_eq hh1 hh2, rfl, rfl, rfl, rfl, rfl, rfl, rfl⟩

end BPA

namespace BPA

instance (b : List Nat) : Decidable (IsPerm b) :=
  inferInstanceAs (Decidable (b.Perm (List.range 16)))

/-! ### Heuristic restatements shared by several claims -/

theorem est_h1_eq_sum {b g : List Nat} (hb : IsPerm b) (hg : IsPerm g) :
    estimated_cost_to_goal_h1 b (some g) =
      some (((∑ i in Finset.range 16,
        if b.getD i 0 ≠ g.getD i 0 then tile_weight (b.getD i 0) else 0 : Nat) : Int) - 1) := by
  have heq : estimated_cost_to_goal_h1 b (some g)
      = (h1Count b g).map (fun c => (c : Int) - 1) := rfl
  rw [heq, h1Count_eq_sum (by rw [hb.len16, hg.len16]) (fun x hx => hb.mem_iff.mp hx), hb.len16]
  rfl

theorem est_h1_self (g : List Nat) : estimated_cost_to_goal_h1 g (some g) = some (-1) := by
  have heq : estimated_cost_to_goal_h1 g (some g)
      = (h1Count g g).map (fun c => (c : Int) - 1) := rfl
  rw [heq, h1Count_self]
  decide

theorem est_h2_eq_sum {b g : List Nat} (hb : IsPerm b) (hg : IsPerm g) :
    estimated_cost_to_goal_h2 b (some g) =
      some (∑ v in Finset.Icc 1 15, (tile_weight v : Int) *
        (((g.indexOf v / 4 : Nat) - (b.indexOf v / 4 : Nat) : Int).natAbs +
         ((g.indexOf v % 4 : Nat) - (b.indexOf v % 4 : Nat) : Int).natAbs)) := by
  have heq : estimated_cost_to_goal_h2 b (some g)
      = h2Total (to_2d_array b) (to_2d_array g) (List.range' 1 15) := rfl
  rw [heq, h2Total_eq_sum hb hg (List.range' 1 15) (fun x hx => by
      have := List.mem_range'_1.mp hx
      omega), sum_range_one_15]

/-- C2: for permutation boards B and G, h1(B, G) is the sum, over the 16
positions where B's tile differs from G's tile, of tile_weight of B's tile,
minus 1 (position i of the flat board is row i / 4, column i % 4); in
particular h1(G, G) = -1, and with no goal set h1 returns 0. -/
theorem claim_C2 (b g : List Nat) (hb : IsPerm b) (hg : IsPerm g) :
    estimated_cost_to_goal_h1 b (some g) =
      some (((∑ i in Finset.range 16,
        if b.getD i 0 ≠ g.getD i 0 then tile_weight (b.getD i 0) else 0 : Nat) : Int) - 1) ∧
    estimated_cost_to_goal_h1 g (some g) = some (-1) ∧
    estimated_cost_to_goal_h1 b none = some 0 :=
  ⟨est_h1_eq_sum hb hg, est_h1_self g, rfl⟩

/-- Witness for C2 at concrete permutation boards. -/
theorem claim_C2_witness :
    estimated_cost_to_goal_h1 [1, 0, 2, 3, 4, 5, 6, 7, 8, 9, 10, 11, 12, 13, 14, 15]
        (some (List.range 16)) =
      some (((∑ i in Finset.range 16,
        if [1, 0, 2, 3, 4, 5, 6, 7, 8, 9, 10, 11, 12, 13, 14, 15].getD i 0
            ≠ (List.range 16).getD i 0
        then tile_weight ([1, 0, 2, 3, 4, 5, 6, 7, 8, 9, 10, 11, 12, 13, 14, 15].getD i 0)
        else 0 : Nat) : Int) - 1) ∧
    estimated_cost_to_goal_h1 (List.range 16) (some (List.range 16)) = some (-1) ∧
    estimated_cost_to_goal_h1 [1, 0, 2, 3, 4, 5, 6, 7, 8, 9, 10, 11, 12, 13, 14, 15] none
      = some 0 :=
  claim_C2 [1, 0, 2, 3, 4, 5, 6, 7, 8, 9, 10, 11, 12, 13, 14, 15] (List.range 16)
    (by decide) (List.Perm.refl _)

/-- C3: for permutation boards B and G, h2(B, G) is the sum over tile values
1..15 of tile_weight times the Manhattan distance between the tile's
position in B and its position in G (a tile at flat index k sits at row
k / 4, column k % 4, and its position is located by the index of its first,
hence unique, occurrence); in particular h2(G, G) = 0. -/
theorem claim_C3 (b g : List Nat) (hb : IsPerm b) (hg : IsPerm g) :
    estimated_cost_to_goal_h2 b (some g) =
      some (∑ v in Finset.Icc 1 15, (tile_weight v : Int) *
        (((g.indexOf v / 4 : Nat) - (b.indexOf v / 4 : Nat) : Int).natAbs +
         ((g.indexOf v % 4 : Nat) - (b.indexOf v % 4 : Nat) : Int).natAbs)) ∧
    estimated_cost_to_goal_h2 g (some g) = some 0 := by
  refine ⟨est_h2_eq_sum hb hg, ?_⟩
  rw [est_h2_eq_sum hg hg]
  congr 1
  apply Finset.sum_eq_zero
  intro v hv
  simp

/-- Witness for C3 at concrete permutation boards. -/
theorem claim_C3_witness :
    estimated_cost_to_goal_h2 [1, 0, 2, 3, 4, 5, 6, 7, 8, 9, 10, 11, 12, 13, 14, 15]
        (some (List.range 16)) =
      some (∑ v in Finset.Icc 1 15, (tile_weight v : Int) *
        ((((List.range 16).indexOf v / 4 : Nat)
            - ([1, 0, 2, 3, 4, 5, 6, 7, 8, 9, 10, 11, 12, 13, 14, 15].indexOf v / 4 : Nat)
            : Int).natAbs +
         (((List.range 16).indexOf v % 4 : Nat)
            - ([1, 0, 2, 3, 4, 5, 6, 7, 8, 9, 10, 11, 12, 13, 14, 15].indexOf v % 4 : Nat)
            : Int).natAbs)) ∧
    estimated_cost_to_goal_h2 (List.range 16) (some (List.range 16)) = some 0 :=
  claim_C3 [1, 0, 2, 3, 4, 5, 6, 7, 8, 9, 10, 11, 12, 13, 14, 15] (List.range 16)
    (by decide) (List.Perm.refl _)

/-- C9: on a permutation board, `find` locates every value 0..15 at in-bounds
coordinates (row, col), both at most 3, with the board holding that value at
flat index 4 * row + col; the not-found branch never fires under the
permutation invariant. -/
theorem claim_C9 (b : List Nat) (v : Nat) (hb : IsPerm b) (hv : v < 16) :
    ∃ r c, find2d (to_2d_array b) v = some (r, c) ∧ r ≤ 3 ∧ c ≤ 3 ∧
      b[4 * r + c]? = some v := by
  obtain ⟨hf, hlt, hbv⟩ := find2d_perm hb hv
  refine ⟨b.indexOf v / 4, b.indexOf v % 4, hf, by omega, by omega, ?_⟩
  have hmod : 4 * (b.indexOf v / 4) + b.indexOf v % 4 = b.indexOf v := by omega
  rw [hmod]
  exact hbv

/-- Witness for C9 at a concrete permutation board and value. -/
theorem claim_C9_witness :
    ∃ r c, find2d (to_2d_array [15, 14, 13, 12, 11, 10, 9, 8, 7, 6, 5, 4, 3, 2, 1, 0]) 9
        = some (r, c) ∧ r ≤ 3 ∧ c ≤ 3 ∧
      [15, 14, 13, 12, 11, 10, 9, 8, 7, 6, 5, 4, 3, 2, 1, 0][4 * r + c]? = some 9 :=
  claim_C9 [15, 14, 13, 12, 11, 10, 9, 8, 7, 6, 5, 4, 3, 2, 1, 0] 9 (by decide) (by decide)

/-- C10: for permutation boards B and G with B different from G, h1(B, G) is
nonnegative; h1(B, G) = -1 holds exactly when B = G. -/
theorem claim_C10 (b g : List Nat) (hb : IsPerm b) (hg : IsPerm g) :
    (b ≠ g → ∃ c : Int, estimated_cost_to_goal_h1 b (some g) = some c ∧ 0 ≤ c) ∧
    (estimated_cost_to_goal_h1 b (some g) = some (-1) ↔ b = g) := by
  have hsum_ge : b ≠ g → 1 ≤ ∑ i in Finset.range 16,
      if b.getD i 0 ≠ g.getD i 0 then tile_weight (b.getD i 0) else 0 := by
    intro hne
    obtain ⟨j, hj, hdiff, hnz⟩ := exists_diff_ne_zero hb hg hne
    have hsplit := Finset.sum_erase_add (Finset.range 16)
      (fun k => if b.getD k 0 ≠ g.getD k 0 then tile_weight (b.getD k 0) else 0)
      (Finset.mem_range.mpr hj)
    simp only [] at hsplit
    rw [if_pos hdiff] at hsplit
    have h1w := tile_weight_one_le hnz
    omega
  constructor
  · intro hne
    refine ⟨_, est_h1_eq_sum hb hg, ?_⟩
    have := hsum_ge hne
    omega
  · constructor
    · intro hm1
      by_contra hne
      rw [est_h1_eq_sum hb hg] at hm1
      have h0 := Option.some.inj hm1
      have := hsum_ge hne
      omega
    · intro heq
      subst heq
      exact est_h1_self b

/-- Witness for C10 at concrete distinct permutation boards. -/
theorem claim_C10_witness :
    ((List.range 16) ≠ [0, 1, 2, 3, 4, 5, 6, 7, 8, 9, 10, 11, 12, 13, 15, 14] →
      ∃ c : Int, estimated_cost_to_goal_h1 (List.range 16)
          (some [0, 1, 2, 3, 4, 5, 6, 7, 8, 9, 10, 11, 12, 13, 15, 14]) = some c ∧ 0 ≤ c) ∧
    (estimated_cost_to_goal_h1 (List.range 16)
        (some [0, 1, 2, 3, 4, 5, 6, 7, 8, 9, 10, 11, 12, 13, 15, 14]) = some (-1) ↔
      (List.range 16) = [0, 1, 2, 3, 4, 5, 6, 7, 8, 9, 10, 11, 12, 13, 15, 14]) :=
  claim_C10 (List.range 16) [0, 1, 2, 3, 4, 5, 6, 7, 8, 9, 10, 11, 12, 13, 15, 14]
    (List.Perm.refl _) (by decide)

end BPA

namespace BPA

/-! ### Swapping two cells preserves the permutation invariant -/

theorem getD_cons_set_perm : ∀ (t : List Nat) (k : Nat), k < t.length →
    ∀ a, (t.getD k 0 :: t.set k a).Perm (a :: t)
  | b :: t2, 0, _, a => by simpa using List.Perm.swap a b t2
  | b :: t2, k + 1, hk, a => by
    have hk2 : k < t2.length := by simpa using hk
    have h1 : (t2.getD k 0 :: b :: t2.set k a).Perm (b :: t2.getD k 0 :: t2.set k a) :=
      List.Perm.swap b (t2.getD k 0) (t2.set k a)
    have h2 : (b :: t2.getD k 0 :: t2.set k a).Perm (b :: a :: t2) :=
      (getD_cons_set_perm t2 k hk2 a).cons b
    have h3 : (b :: a :: t2).Perm (a :: b :: t2) := List.Perm.swap a b t2
    exact (h1.trans h2).trans h3

theorem set_set_perm : ∀ (l : List Nat) (i j : Nat), i < l.length → j < l.length → i ≠ j →
    ((l.set i (l.getD j 0)).set j (l.getD i 0)).Perm l
  | [], _, _, hi, _, _ => by simp at hi
  | _ :: _, 0, 0, _, _, hij => absurd rfl hij
  | a :: t, 0, j + 1, _, hj, _ => by
    have hj2 : j < t.length := by simpa using hj
    simpa using getD_cons_set_perm t j hj2 a
  | a :: t, i + 1, 0, hi, _, _ => by
    have hi2 : i < t.length := by simpa using hi
    simpa using getD_cons_set_perm t i hi2 a
  | a :: t, i + 1, j + 1, hi, hj, hij => by
    have hi2 : i < t.length := by simpa using hi
    have hj2 : j < t.length := by simpa using hj
    have hij2 : i ≠ j := fun h => hij (by rw [h])
    simpa using (set_set_perm t i j hi2 hj2 hij2).cons a

theorem swap_board_perm {b : List Nat} (hb : IsPerm b) {i j : Nat}
    (hi : i < 16) (hj : j < 16) (hij : i ≠ j) :
    IsPerm ((b.set i (b.getD j 0)).set j (b.getD i 0)) :=
  (set_set_perm b i j (hb.len16 ▸ hi) (hb.len16 ▸ hj) hij).trans hb

/-! ### The success path of `move` -/

theorem indexOf?_eq_of_mem {l : List Nat} {v : Nat} (h : v ∈ l) :
    l.indexOf? v = some (l.indexOf v) := by
  induction l with
  | nil => simp at h
  | cons a t ih =>
    rw [List.indexOf?_cons]
    by_cases hav : a = v
    · subst hav
      simp [List.indexOf_cons_self]
    · have hvt : v ∈ t := by
        rcases List.mem_cons.mp h with h1 | h1
        · exact absurd h1.symm hav
        · exact h1
      rw [if_neg (by simpa using hav), ih hvt, List.indexOf_cons_ne _ hav]
      rfl

theorem blank_facts {b : List Nat} (hb : IsPerm b) :
    b.indexOf 0 < 16 ∧ b[b.indexOf 0]? = some 0 := by
  have hmem : (0 : Nat) ∈ b := hb.mem_iff.mpr (by omega)
  have hlt : b.indexOf 0 < b.length := List.indexOf_lt_length.mpr hmem
  exact ⟨hb.len16 ▸ hlt, by rw [List.getElem?_eq_getElem hlt, List.getElem_indexOf hlt]⟩

theorem target_facts {z : Nat} (hz : z < 16) (d : Direction)
    (hv : dirValid (z / 4) (z % 4) d) :
    0 ≤ (z : Int) + d.offset ∧ (z : Int) + d.offset < 16 ∧
      ((z : Int) + d.offset).toNat < 16 ∧ ((z : Int) + d.offset).toNat ≠ z := by
  cases d <;> simp only [Direction.offset, dirValid] at hv ⊢ <;> omega

theorem move_cost_eq {s : PuzzleState} {t : Nat} {v : Nat}
    (hbt : s.board_state_1d[t]? = some v) (hv0 : v ≠ 0) (hv16 : v < 16) :
    s.move_cost t = some ((tile_weight v : Nat) : Int) := by
  have heq : s.move_cost t
      = (if 0 < v ∧ v < 10 then some 1 else if 10 ≤ v ∧ v ≤ 15 then some 10 else none) := by
    unfold PuzzleState.move_cost
    rw [hbt]
  rw [heq, tile_weight_of_ne_zero hv0]
  by_cases h10 : v < 10
  · rw [if_pos (⟨by omega, h10⟩ : 0 < v ∧ v < 10), if_pos h10]
    simp
  · rw [if_neg (fun hc => absurd hc.2 h10 : ¬(0 < v ∧ v < 10)),
      if_pos (⟨by omega, by omega⟩ : 10 ≤ v ∧ v ≤ 15), if_neg h10]
    simp

/-- The success path of `PuzzleState.move` on a permutation board with an
in-bounds direction: the move succeeds, the moved tile is the non-blank tile
read at the target index before the swap, the child's board is the swap of
blank and target, its accumulated cost grows by the moved tile's weight, and
the remaining node fields are as constructed. -/
theorem move_spec {s : PuzzleState} (hb : IsPerm s.board_state_1d) (hg : GoalOk s)
    (nid : Nat) (d : Direction)
    (hv : dirValid (s.board_state_1d.indexOf 0 / 4) (s.board_state_1d.indexOf 0 % 4) d) :
    ∃ (v : Nat) (s' : PuzzleState),
      s.move nid d = some s' ∧
      s.board_state_1d[((s.board_state_1d.indexOf 0 : Int) + d.offset).toNat]? = some v ∧
      v ≠ 0 ∧ v < 16 ∧
      s'.board_state_1d =
        (s.board_state_1d.set (s.board_state_1d.indexOf 0)
            (s.board_state_1d.getD (((s.board_state_1d.indexOf 0 : Int) + d.offset).toNat) 0)).set
          (((s.board_state_1d.indexOf 0 : Int) + d.offset).toNat)
          (s.board_state_1d.getD (s.board_state_1d.indexOf 0) 0) ∧
      IsPerm s'.board_state_1d ∧
      s'.g_of_n = s.g_of_n + ((tile_weight v : Nat) : Int) ∧
      s'.depth = s.depth + 1 ∧
      s'.parent_id = some s.id_no ∧
      s'.goal_board = s.goal_board ∧
      s'.board_state = to_2d_array s'.board_state_1d ∧
      s'.id_no = nid := by
  obtain ⟨hz16, hbz⟩ := blank_facts hb
  obtain ⟨hpos, hlt, ht16, htz⟩ :=
    target_facts hz16 d hv
  have htlen : ((s.board_state_1d.indexOf 0 : Int) + d.offset).toNat < s.board_state_1d.length :=
    hb.len16 ▸ ht16
  obtain ⟨v, hbt⟩ : ∃ v, s.board_state_1d[((s.board_state_1d.indexOf 0 : Int) + d.offset).toNat]?
      = some v := ⟨_, List.getElem?_eq_getElem htlen⟩
  have hv16 : v < 16 := hb.mem_iff.mp (List.getElem?_mem hbt)
  have hv0 : v ≠ 0 := by
    intro hzero
    subst hzero
    apply htz
    obtain ⟨h1, h2⟩ := List.getElem?_eq_some_iff.mp hbt
    obtain ⟨h3, h4⟩ := List.getElem?_eq_some_iff.mp hbz
    exact (List.Nodup.getElem_inj_iff hb.nodup).mp (by rw [h2, h4])
  have hbnew : IsPerm ((s.board_state_1d.set (s.board_state_1d.indexOf 0)
      (s.board_state_1d.getD (((s.board_state_1d.indexOf 0 : Int) + d.offset).toNat) 0)).set
        (((s.board_state_1d.indexOf 0 : Int) + d.offset).toNat)
        (s.board_state_1d.getD (s.board_state_1d.indexOf 0) 0)) :=
    swap_board_perm hb hz16 ht16 (fun h => htz h.symm)
  obtain ⟨s', hmk, hfb, hf2d, hfg, hfp, hfd, hfcost, hfid⟩ :=
    mk_some hbnew hg (some s.id_no) (s.depth + 1)
      (s.g_of_n + ((tile_weight v : Nat) : Int)) nid
  refine ⟨v, s', ?_, hbt, hv0, hv16, hfb, hfb ▸ hbnew, hfcost, hfd, hfp, hfg,
    hfb ▸ hf2d, hfid⟩
  unfold PuzzleState.move
  rw [indexOf?_eq_of_mem (hb.mem_iff.mpr (by omega : (0 : Nat) < 16))]
  simp only [Option.bind_eq_bind, Option.some_bind]
  rw [hb.len16]
  rw [if_pos (⟨by omega, by omega⟩ :
    -((16 : Nat) : Int) ≤ (s.board_state_1d.indexOf 0 : Int) + d.offset
    ∧ (s.board_state_1d.indexOf 0 : Int) + d.offset < ((16 : Nat) : Int))]
  rw [if_neg (by omega : ¬ (s.board_state_1d.indexOf 0 : Int) + d.offset < 0)]
  rw [move_cost_eq hbt hv0 hv16]
  simp only [Option.some_bind]
  exact hmk

end BPA

namespace BPA

/-- C1: for every node on a permutation board and every direction valid at the
blank's (row, col) position, the move succeeds and the successor's accumulated
cost g equals the parent's g plus the weight of the tile that slides into the
blank, read at the target index of the parent board BEFORE the swap: 1 if the
tile's value is 1-9, 10 if 10-15.  The moved tile is never the blank, so the
blank's weight is never charged. -/
theorem claim_C1 (s : PuzzleState) (nid : Nat) (d : Direction)
    (hb : IsPerm s.board_state_1d) (hg : GoalOk s)
    (hv : dirValid (s.board_state_1d.indexOf 0 / 4) (s.board_state_1d.indexOf 0 % 4) d) :
    ∃ (v : Nat) (s' : PuzzleState),
      s.move nid d = some s' ∧
      s.board_state_1d[((s.board_state_1d.indexOf 0 : Int) + d.offset).toNat]? = some v ∧
      v ≠ 0 ∧
      s'.g_of_n = s.g_of_n + ((tile_weight v : Nat) : Int) ∧
      (1 ≤ v ∧ v ≤ 9 → tile_weight v = 1) ∧
      (10 ≤ v ∧ v ≤ 15 → tile_weight v = 10) ∧
      (tile_weight v = 1 ∨ tile_weight v = 10) := by
  obtain ⟨v, s', hmv, hbt, hv0, hv16, -, -, hcost, -, -, -, -, -⟩ := move_spec hb hg nid d hv
  refine ⟨v, s', hmv, hbt, hv0, hcost, ?_, ?_, ?_⟩
  · intro hrange
    rw [tile_weight_of_ne_zero hv0, if_pos (by omega)]
  · intro hrange
    rw [tile_weight_of_ne_zero hv0, if_neg (by omega)]
  · rw [tile_weight_of_ne_zero hv0]
    split_ifs
    · exact Or.inl rfl
    · exact Or.inr rfl

/-- Witness for C1: sliding right from the solved board's corner blank. -/
theorem claim_C1_witness :
    ∃ (v : Nat) (s' : PuzzleState),
      PuzzleState.move
        { parent_id := none, id_no := 1, board_state_1d := List.range 16,
          board_state := to_2d_array (List.range 16), goal_board := none, h1_of_n := 0,
          h2_of_n := 0, g_of_n := 0, f1_of_n := 0, f2_of_n := 0, depth := 0 } 2
        Direction.right = some s' ∧
      (List.range 16)[(((List.range 16).indexOf 0 : Int) + Direction.right.offset).toNat]?
        = some v ∧
      v ≠ 0 ∧
      s'.g_of_n = 0 + ((tile_weight v : Nat) : Int) ∧
      (1 ≤ v ∧ v ≤ 9 → tile_weight v = 1) ∧
      (10 ≤ v ∧ v ≤ 15 → tile_weight v = 10) ∧
      (tile_weight v = 1 ∨ tile_weight v = 10) :=
  claim_C1
    { parent_id := none, id_no := 1, board_state_1d := List.range 16,
      board_state := to_2d_array (List.range 16), goal_board := none, h1_of_n := 0,
      h2_of_n := 0, g_of_n := 0, f1_of_n := 0, f2_of_n := 0, depth := 0 } 2
    Direction.right (List.Perm.refl _) (Or.inl rfl) (by decide)

/-! ### Expansion -/

theorem validMoveList_eq_filter (row col : Nat) :
    validMoveList row col =
      [Direction.up, Direction.down, Direction.left, Direction.right].filter
        (fun d => decide (dirValid row col d)) := by
  unfold validMoveList
  by_cases h1 : 0 < row <;> by_cases h2 : row < 3 <;> by_cases h3 : 0 < col <;>
    by_cases h4 : col < 3 <;>
    simp [h1, h2, h3, h4, List.filter, dirValid]

theorem mem_validMoveList {row col : Nat} {d : Direction}
    (h : d ∈ validMoveList row col) : dirValid row col d := by
  rw [validMoveList_eq_filter] at h
  have := (List.mem_filter.mp h).2
  simpa using this

theorem movesMap_spec (s : PuzzleState) :
    ∀ (ds : List Direction) (nid : Nat),
      (∀ d ∈ ds, ∀ n : Nat, ∃ c, s.move n d = some c) →
      ∃ l, movesMap s nid ds = some l ∧ l.length = ds.length ∧
        ∀ i (hi : i < ds.length) (hl : i < l.length),
          s.move (nid + i) (ds.get ⟨i, hi⟩) = some (l.get ⟨i, hl⟩)
  | [], nid, _ => ⟨[], rfl, rfl, fun i hi => by simp at hi⟩
  | d :: ds, nid, h => by
    obtain ⟨c, hc⟩ := h d (List.mem_cons_self _ _) nid
    obtain ⟨l, hl, hlen, hpt⟩ := movesMap_spec s ds (nid + 1)
      (fun d2 hd2 n => h d2 (List.mem_cons_of_mem _ hd2) n)
    refine ⟨c :: l, ?_, by simpa using hlen, ?_⟩
    · unfold movesMap
      rw [hc]
      simp only [Option.bind_eq_bind, Option.some_bind]
      rw [hl]
      rfl
    · intro i hi hli
      cases i with
      | zero => simpa using hc
      | succ i2 =>
        have hi2 : i2 < ds.length := by simpa using hi
        have hli2 : i2 < l.length := by simpa using hli
        have harg : nid + (i2 + 1) = (nid + 1) + i2 := by omega
        have hget1 : (d :: ds).get ⟨i2 + 1, hi⟩ = ds.get ⟨i2, hi2⟩ := rfl
        have hget2 : (c :: l).get ⟨i2 + 1, hli⟩ = l.get ⟨i2, hli2⟩ := rfl
        rw [hget1, hget2, harg]
        exact hpt i2 hi2 hli2

/-- The success path of `expand` on a permutation board: the blank is
located, the valid directions are up, down, left, right filtered by the
bounds tests, and one child is built per valid direction, in order. -/
theorem expand_spec {s : PuzzleState} (hb : IsPerm s.board_state_1d) (hg : GoalOk s)
    (h2d : s.board_state = to_2d_array s.board_state_1d) (nid : Nat) :
    ∃ l, s.expand nid = some l ∧
      l.length = (validMoveList (s.board_state_1d.indexOf 0 / 4)
        (s.board_state_1d.indexOf 0 % 4)).length ∧
      ∀ i (hi : i < (validMoveList (s.board_state_1d.indexOf 0 / 4)
          (s.board_state_1d.indexOf 0 % 4)).length) (hl : i < l.length),
        s.move (nid + i) ((validMoveList (s.board_state_1d.indexOf 0 / 4)
          (s.board_state_1d.indexOf 0 % 4)).get ⟨i, hi⟩) = some (l.get ⟨i, hl⟩) := by
  obtain ⟨hf, -, -⟩ := find2d_perm hb (show (0 : Nat) < 16 by omega)
  have hmv : ∀ d ∈ validMoveList (s.board_state_1d.indexOf 0 / 4)
      (s.board_state_1d.indexOf 0 % 4), ∀ n : Nat, ∃ c, s.move n d = some c := by
    intro d hd n
    obtain ⟨v, c, hc, -, -, -, -, -, -, -, -, -, -, -⟩ :=
      move_spec hb hg n d (mem_validMoveList hd)
    exact ⟨c, hc⟩
  obtain ⟨l, hl, hlen, hpt⟩ := movesMap_spec s _ nid hmv
  refine ⟨l, ?_, hlen, hpt⟩
  unfold PuzzleState.expand
  rw [h2d, hf]
  simp only [Option.bind_eq_bind, Option.some_bind]
  exact hl

/-- C8: expanding a node whose board is a permutation of 0..15 succeeds and
every successor board is again a permutation of 0..15; in particular every
successor board contains exactly one blank (one occurrence of 0). -/
theorem claim_C8 (s : PuzzleState) (nid : Nat) (hb : IsPerm s.board_state_1d)
    (hg : GoalOk s) (h2d : s.board_state = to_2d_array s.board_state_1d) :
    ∃ l, s.expand nid = some l ∧
      ∀ s2 ∈ l, IsPerm s2.board_state_1d ∧ s2.board_state_1d.count 0 = 1 := by
  obtain ⟨l, hl, hlen, hpt⟩ := expand_spec hb hg h2d nid
  refine ⟨l, hl, ?_⟩
  intro s2 hs2
  obtain ⟨⟨i, hli⟩, hget⟩ := List.mem_iff_get.mp hs2
  have hi : i < (validMoveList (s.board_state_1d.indexOf 0 / 4)
      (s.board_state_1d.indexOf 0 % 4)).length := by omega
  have hmove := hpt i hi hli
  have hvd := mem_validMoveList (List.get_mem _ i hi)
  obtain ⟨v, s', hmv, -, -, -, -, hperm, -, -, -, -, -, -⟩ :=
    move_spec hb hg (nid + i) _ hvd
  rw [hmv] at hmove
  have hs2eq : s' = l.get ⟨i, hli⟩ := Option.some.inj hmove
  rw [← hget, ← hs2eq]
  refine ⟨hperm, ?_⟩
  rw [List.Perm.count_eq hperm 0]
  decide

end BPA

namespace BPA

/-- C5: expansion on a permutation board returns one successor per direction
in the order up, down, left, right restricted to the directions that keep
the blank inside the 4x4 grid (up iff row > 0, down iff row < 3, left iff
col > 0, right iff col < 3, where the blank's flat index z gives row z / 4
and column z % 4); with the blank at corner (0,0) (z = 0) the valid list is
exactly down then right and there are exactly 2 successors; with the blank
at interior (1,1) (z = 5) there are exactly 4. -/
theorem claim_C5 (s : PuzzleState) (nid : Nat) (hb : IsPerm s.board_state_1d)
    (hg : GoalOk s) (h2d : s.board_state = to_2d_array s.board_state_1d) :
    ∃ l, s.expand nid = some l ∧
      validMoveList (s.board_state_1d.indexOf 0 / 4) (s.board_state_1d.indexOf 0 % 4)
        = [Direction.up, Direction.down, Direction.left, Direction.right].filter
            (fun d => decide (dirValid (s.board_state_1d.indexOf 0 / 4)
              (s.board_state_1d.indexOf 0 % 4) d)) ∧
      l.length = (validMoveList (s.board_state_1d.indexOf 0 / 4)
        (s.board_state_1d.indexOf 0 % 4)).length ∧
      (∀ i (hi : i < (validMoveList (s.board_state_1d.indexOf 0 / 4)
          (s.board_state_1d.indexOf 0 % 4)).length) (hl : i < l.length),
        s.move (nid + i) ((validMoveList (s.board_state_1d.indexOf 0 / 4)
          (s.board_state_1d.indexOf 0 % 4)).get ⟨i, hi⟩) = some (l.get ⟨i, hl⟩)) ∧
      (s.board_state_1d.indexOf 0 = 0 →
        validMoveList 0 0 = [Direction.down, Direction.right] ∧ l.length = 2) ∧
      (s.board_state_1d.indexOf 0 = 5 → l.length = 4) := by
  obtain ⟨l, hl, hlen, hpt⟩ := expand_spec hb hg h2d nid
  refine ⟨l, hl, validMoveList_eq_filter _ _, hlen, hpt, ?_, ?_⟩
  · intro hz
    rw [hz] at hlen
    exact ⟨rfl, by rw [hlen]; decide⟩
  · intro hz
    rw [hz] at hlen
    rw [hlen]
    decide

/-- Witness for C5: expanding the solved board, whose blank is at the corner
(0, 0). -/
theorem claim_C5_witness :
    ∃ l, PuzzleState.expand
        { parent_id := none, id_no := 1,
          board_state_1d := [0, 1, 2, 3, 4, 5, 6, 7, 8, 9, 10, 11, 12, 13, 14, 15],
          board_state := to_2d_array [0, 1, 2, 3, 4, 5, 6, 7, 8, 9, 10, 11, 12, 13, 14, 15],
          goal_board := none, h1_of_n := 0, h2_of_n := 0, g_of_n := 0, f1_of_n := 0,
          f2_of_n := 0, depth := 0 } 2 = some l ∧
      validMoveList ([0, 1, 2, 3, 4, 5, 6, 7, 8, 9, 10, 11, 12, 13, 14, 15].indexOf 0 / 4)
          ([0, 1, 2, 3, 4, 5, 6, 7, 8, 9, 10, 11, 12, 13, 14, 15].indexOf 0 % 4)
        = [Direction.up, Direction.down, Direction.left, Direction.right].filter
            (fun d => decide (dirValid
              ([0, 1, 2, 3, 4, 5, 6, 7, 8, 9, 10, 11, 12, 13, 14, 15].indexOf 0 / 4)
              ([0, 1, 2, 3, 4, 5, 6, 7, 8, 9, 10, 11, 12, 13, 14, 15].indexOf 0 % 4) d)) ∧
      l.length = (validMoveList
        ([0, 1, 2, 3, 4, 5, 6, 7, 8, 9, 10, 11, 12, 13, 14, 15].indexOf 0 / 4)
        ([0, 1, 2, 3, 4, 5, 6, 7, 8, 9, 10, 11, 12, 13, 14, 15].indexOf 0 % 4)).length ∧
      (∀ i (hi : i < (validMoveList
          ([0, 1, 2, 3, 4, 5, 6, 7, 8, 9, 10, 11, 12, 13, 14, 15].indexOf 0 / 4)
          ([0, 1, 2, 3, 4, 5, 6, 7, 8, 9, 10, 11, 12, 13, 14, 15].indexOf 0 % 4)).length)
          (hl : i < l.length),
        PuzzleState.move
          { parent_id := none, id_no := 1,
            board_state_1d := [0, 1, 2, 3, 4, 5, 6, 7, 8, 9, 10, 11, 12, 13, 14, 15],
            board_state := to_2d_array [0, 1, 2, 3, 4, 5, 6, 7, 8, 9, 10, 11, 12, 13, 14, 15],
            goal_board := none, h1_of_n := 0, h2_of_n := 0, g_of_n := 0, f1_of_n := 0,
            f2_of_n := 0, depth := 0 } (2 + i)
          ((validMoveList
            ([0, 1, 2, 3, 4, 5, 6, 7, 8, 9, 10, 11, 12, 13, 14, 15].indexOf 0 / 4)
            ([0, 1, 2, 3, 4, 5, 6, 7, 8, 9, 10, 11, 12, 13, 14, 15].indexOf 0 % 4)).get
              ⟨i, hi⟩) = some (l.get ⟨i, hl⟩)) ∧
      ([0, 1, 2, 3, 4, 5, 6, 7, 8, 9, 10, 11, 12, 13, 14, 15].indexOf 0 = 0 →
        validMoveList 0 0 = [Direction.down, Direction.right] ∧ l.length = 2) ∧
      ([0, 1, 2, 3, 4, 5, 6, 7, 8, 9, 10, 11, 12, 13, 14, 15].indexOf 0 = 5 →
        l.length = 4) :=
  claim_C5
    { parent_id := none, id_no := 1,
      board_state_1d := [0, 1, 2, 3, 4, 5, 6, 7, 8, 9, 10, 11, 12, 13, 14, 15],
      board_state := to_2d_array [0, 1, 2, 3, 4, 5, 6, 7, 8, 9, 10, 11, 12, 13, 14, 15],
      goal_board := none, h1_of_n := 0, h2_of_n := 0, g_of_n := 0, f1_of_n := 0,
      f2_of_n := 0, depth := 0 } 2 (by decide) (Or.inl rfl) rfl

/-- Witness for C8: expanding the source's sample goal board. -/
theorem claim_C8_witness :
    ∃ l, PuzzleState.expand
        { parent_id := none, id_no := 1,
          board_state_1d := [1, 2, 3, 4, 5, 6, 7, 8, 9, 10, 11, 12, 13, 14, 15, 0],
          board_state := to_2d_array [1, 2, 3, 4, 5, 6, 7, 8, 9, 10, 11, 12, 13, 14, 15, 0],
          goal_board := none, h1_of_n := 0, h2_of_n := 0, g_of_n := 0, f1_of_n := 0,
          f2_of_n := 0, depth := 0 } 2 = some l ∧
      ∀ s2 ∈ l, IsPerm s2.board_state_1d ∧ s2.board_state_1d.count 0 = 1 :=
  claim_C8
    { parent_id := none, id_no := 1,
      board_state_1d := [1, 2, 3, 4, 5, 6, 7, 8, 9, 10, 11, 12, 13, 14, 15, 0],
      board_state := to_2d_array [1, 2, 3, 4, 5, 6, 7, 8, 9, 10, 11, 12, 13, 14, 15, 0],
      goal_board := none, h1_of_n := 0, h2_of_n := 0, g_of_n := 0, f1_of_n := 0,
      f2_of_n := 0, depth := 0 } 2 (by decide) (Or.inl rfl) rfl

end BPA

namespace BPA

/-! ### Step equations of the search loop -/

theorem solveLoop_zero (gb : List Nat) (m : Method) (st : LoopState) :
    solveLoop gb m 0 st = none := rfl

theorem solveLoop_succ_popNone {gb : List Nat} {m : Method} {fuel : Nat} {st : LoopState}
    (hpop : popMin st.open_list = none) :
    solveLoop gb m (fuel + 1) st = some (.error .popEmpty) := by
  unfold solveLoop
  simp only [hpop]

theorem solveLoop_succ_goal_found {gb : List Nat} {m : Method} {fuel : Nat} {st : LoopState}
    {e : Entry} {rest : List Entry} {path : List PuzzleState}
    (hpop : popMin st.open_list = some (e, rest))
    (hgoal : e.2.2.board_state_1d = gb)
    (hpath : get_state_path e.2.2 st.closed_list = some path) :
    solveLoop gb m (fuel + 1) st = some (.ok
      { path := path, added_to_open_list := st.added_to_open_list,
        closed_list := st.closed_list }) := by
  unfold solveLoop
  simp only [hpop]
  rw [if_pos hgoal]
  simp only [hpath]

theorem solveLoop_succ_pathNone {gb : List Nat} {m : Method} {fuel : Nat} {st : LoopState}
    {e : Entry} {rest : List Entry}
    (hpop : popMin st.open_list = some (e, rest))
    (hgoal : e.2.2.board_state_1d = gb)
    (hpath : get_state_path e.2.2 st.closed_list = none) :
    solveLoop gb m (fuel + 1) st = some (.error .stateError) := by
  unfold solveLoop
  simp only [hpop]
  rw [if_pos hgoal]
  simp only [hpath]

theorem solveLoop_succ_expandNone {gb : List Nat} {m : Method} {fuel : Nat} {st : LoopState}
    {e : Entry} {rest : List Entry}
    (hpop : popMin st.open_list = some (e, rest))
    (hgoal : ¬ e.2.2.board_state_1d = gb)
    (hexp : e.2.2.expand st.next_id = none) :
    solveLoop gb m (fuel + 1) st = some (.error .stateError) := by
  unfold solveLoop
  simp only [hpop]
  rw [if_neg hgoal]
  simp only [hexp]

theorem solveLoop_succ_expand {gb : List Nat} {m : Method} {fuel : Nat} {st : LoopState}
    {e : Entry} {rest : List Entry} {exps : List PuzzleState}
    (hpop : popMin st.open_list = some (e, rest))
    (hgoal : ¬ e.2.2.board_state_1d = gb)
    (hexp : e.2.2.expand st.next_id = some exps) :
    solveLoop gb m (fuel + 1) st = solveLoop gb m fuel
      { open_list := rest ++ exps.map (fun ns => (priorityOf m ns, ns.id_no, ns)),
        closed_list := st.closed_list ++ [e.2.2],
        added_to_open_list := st.added_to_open_list + exps.length,
        next_id := st.next_id + exps.length } := by
  unfold solveLoop
  simp only [hpop]
  rw [if_neg hgoal]
  simp only [hexp]
  cases fuel with
  | zero => rfl
  | succ f => rfl

/-! ### Path reconstruction facts -/

theorem get_state_path_depth0 {st : PuzzleState} (h : st.depth = 0)
    (closed : List PuzzleState) : get_state_path st closed = some [st] := by
  unfold get_state_path pathWalk
  rw [if_pos h]

theorem pathWalk_head (closed : List PuzzleState) :
    ∀ (fuel : Nat) (cur a : PuzzleState) (acc res : List PuzzleState),
      pathWalk closed fuel cur (a :: acc) = some res → res.head? = some a
  | 0, cur, a, acc, res, h => by
    unfold pathWalk at h
    by_cases hd : cur.depth = 0
    · rw [if_pos hd] at h
      rw [← Option.some.inj h]
      rfl
    · rw [if_neg hd] at h
      simp at h
  | fuel + 1, cur, a, acc, res, h => by
    unfold pathWalk at h
    by_cases hd : cur.depth = 0
    · rw [if_pos hd] at h
      rw [← Option.some.inj h]
      rfl
    · rw [if_neg hd] at h
      cases hp : get_parent_state cur closed with
      | none =>
        rw [hp] at h
        simp at h
      | some p =>
        rw [hp] at h
        exact pathWalk_head closed fuel p a (acc ++ [p]) res (by simpa using h)

theorem get_state_path_head {endSt : PuzzleState} {closed path : List PuzzleState}
    (h : get_state_path endSt closed = some path) : path.head? = some endSt :=
  pathWalk_head closed endSt.depth endSt endSt [] path h

/-! ### The search loop returns a solved result only on a goal board -/

theorem solveLoop_ok_goal (gb : List Nat) (m : Method) :
    ∀ (fuel : Nat) (st : LoopState) (res : SolveResult),
      solveLoop gb m fuel st = some (.ok res) →
      ∃ endSt, res.path.head? = some endSt ∧ endSt.board_state_1d = gb
  | 0, st, res, h => by
    rw [solveLoop_zero] at h
    exact absurd h (by simp)
  | fuel + 1, st, res, h => by
    cases hpop : popMin st.open_list with
    | none =>
      rw [solveLoop_succ_popNone hpop] at h
      simp at h
    | some pr =>
      obtain ⟨e, rest⟩ := pr
      by_cases hgoal : e.2.2.board_state_1d = gb
      · cases hpath : get_state_path e.2.2 st.closed_list with
        | none =>
          rw [solveLoop_succ_pathNone hpop hgoal hpath] at h
          simp at h
        | some path =>
          rw [solveLoop_succ_goal_found hpop hgoal hpath] at h
          have hres := Except.ok.inj (Option.some.inj h)
          refine ⟨e.2.2, ?_, hgoal⟩
          rw [← hres]
          exact get_state_path_head hpath
      · cases hexp : e.2.2.expand st.next_id with
        | none =>
          rw [solveLoop_succ_expandNone hpop hgoal hexp] at h
          simp at h
        | some exps =>
          rw [solveLoop_succ_expand hpop hgoal hexp] at h
          exact solveLoop_ok_goal gb m fuel _ res h

end BPA

namespace BPA

theorem popMin_single (e : Entry) : popMin [e] = some (e, []) := rfl

theorem est_h2_self {g : List Nat} (hg : IsPerm g) :
    estimated_cost_to_goal_h2 g (some g) = some 0 := by
  rw [est_h2_eq_sum hg hg]
  congr 1
  apply Finset.sum_eq_zero
  intro v hv
  simp

/-- C6: when the start board equals the goal board (a permutation board),
`solve` with any of the three methods terminates after popping only the root
node — one unit of fuel beyond the pop suffices, whatever the fuel — and
reports a one-node path (0 moves), a frontier-insertion count of 0, and an
empty (size 0) closed list. -/
theorem claim_C6 (b : List Nat) (m : Method) (fuel : Nat) (hb : IsPerm b) :
    ∃ st, mkPuzzleState b (some b) none 0 0 1 = some st ∧
      solve b b m (fuel + 1) = some (Except.ok
        { path := [st], added_to_open_list := 0, closed_list := [] }) ∧
      [st].length - 1 = 0 := by
  have hh1g : estimated_cost_to_goal_h1 b none = some 0 := rfl
  have hh2g : estimated_cost_to_goal_h2 b none = some 0 := rfl
  have hh1s : estimated_cost_to_goal_h1 b (some b) = some (-1) := est_h1_self b
  have hh2s : estimated_cost_to_goal_h2 b (some b) = some 0 := est_h2_self hb
  refine ⟨_, mk_eq hh1s hh2s, ?_, rfl⟩
  unfold solve
  rw [mk_eq hh1g hh2g, mk_eq hh1s hh2s]
  show solveLoop b m (fuel + 1)
      { open_list := [(0, 1,
          { parent_id := none, id_no := 1, board_state_1d := b,
            board_state := to_2d_array b, goal_board := some b, h1_of_n := -1,
            h2_of_n := 0, g_of_n := 0, f1_of_n := 0 + -1, f2_of_n := 0 + 0,
            depth := 0 })],
        closed_list := [], added_to_open_list := 0, next_id := 2 } = _
  exact solveLoop_succ_goal_found (popMin_single _) rfl (get_state_path_depth0 rfl _)

/-- Witness for C6: the source's sample goal board as both start and goal,
solved by BFS with the minimum fuel. -/
theorem claim_C6_witness :
    ∃ st, mkPuzzleState [1, 2, 3, 4, 5, 6, 7, 8, 9, 10, 11, 12, 13, 14, 15, 0]
        (some [1, 2, 3, 4, 5, 6, 7, 8, 9, 10, 11, 12, 13, 14, 15, 0]) none 0 0 1 = some st ∧
      solve [1, 2, 3, 4, 5, 6, 7, 8, 9, 10, 11, 12, 13, 14, 15, 0]
          [1, 2, 3, 4, 5, 6, 7, 8, 9, 10, 11, 12, 13, 14, 15, 0] Method.bfs (0 + 1)
        = some (Except.ok
          { path := [st], added_to_open_list := 0, closed_list := [] }) ∧
      [st].length - 1 = 0 :=
  claim_C6 [1, 2, 3, 4, 5, 6, 7, 8, 9, 10, 11, 12, 13, 14, 15, 0] Method.bfs 0 (by decide)

/-- C7: the search loop entered with an empty frontier fails with the
pop-from-empty error on the very next pop — it never reports an
"unsolvable" result — and the only successful termination is popping a node
whose board equals the goal board (the head of the reported path); there is
no other termination guard. -/
theorem claim_C7 (gb : List Nat) (m : Method) :
    (∀ (fuel : Nat) (st : LoopState), st.open_list = [] →
      solveLoop gb m (fuel + 1) st = some (.error .popEmpty)) ∧
    (∀ (fuel : Nat) (st : LoopState) (res : SolveResult),
      solveLoop gb m fuel st = some (.ok res) →
      ∃ endSt, res.path.head? = some endSt ∧ endSt.board_state_1d = gb) := by
  constructor
  · intro fuel st hempty
    apply solveLoop_succ_popNone
    rw [hempty]
    rfl
  · exact solveLoop_ok_goal gb m

/-- Concrete sample goal board (the source's `goal_board`), used by the
solver witnesses. -/
def goalBoardSample : List Nat := [1, 2, 3, 4, 5, 6, 7, 8, 9, 10, 11, 12, 13, 14, 15, 0]

/-- A concrete root node holding the sample goal board, used by the solver
witnesses. -/
def rootSample : PuzzleState :=
  { parent_id := none, id_no := 1, board_state_1d := goalBoardSample, board_state := [],
    goal_board := none, h1_of_n := 0, h2_of_n := 0, g_of_n := 0, f1_of_n := 0,
    f2_of_n := 0, depth := 0 }

/-- Witness for C7: the empty frontier fails with the pop error, and the
successful run of the start-equals-goal instance ends on the goal board. -/
theorem claim_C7_witness :
    solveLoop goalBoardSample Method.bfs (0 + 1)
        { open_list := [], closed_list := [], added_to_open_list := 0, next_id := 2 }
      = some (.error .popEmpty) ∧
    (∃ endSt, (({ path := [rootSample], added_to_open_list := 0,
                  closed_list := [] } : SolveResult)).path.head? = some endSt ∧
      endSt.board_state_1d = goalBoardSample) :=
  ⟨(claim_C7 goalBoardSample Method.bfs).1 0
      { open_list := [], closed_list := [], added_to_open_list := 0, next_id := 2 } rfl,
    (claim_C7 goalBoardSample Method.bfs).2 1
      { open_list := [(0, 1, rootSample)], closed_list := [], added_to_open_list := 0,
        next_id := 2 }
      { path := [rootSample], added_to_open_list := 0, closed_list := [] } rfl⟩

end BPA

namespace BPA

/-! ### Board-level move sequences

The abstract moves of the puzzle: a direction is legal when it keeps the
blank inside the grid, and a legal move swaps the blank with the tile at the
target cell, costing that tile's weight.  `PuzzleState.move` realises exactly
this on permutation boards (see `move_spec`); move sequences give the
reference semantics against which the search's answers are measured. -/

/-- One legal sliding move on a bare board: `none` when the direction walks
the blank off the grid, otherwise the swapped board and the moved tile's
weight. -/
def moveBoardCost (b : List Nat) (d : Direction) : Option (List Nat × Nat) :=
  if dirValid (b.indexOf 0 / 4) (b.indexOf 0 % 4) d then
    some ((b.set (b.indexOf 0) (b.getD (((b.indexOf 0 : Int) + d.offset).toNat) 0)).set
        (((b.indexOf 0 : Int) + d.offset).toNat) (b.getD (b.indexOf 0) 0),
      tile_weight (b.getD (((b.indexOf 0 : Int) + d.offset).toNat) 0))
  else none

/-- Run a move sequence from a board, accumulating the total cost; `none` if
any move is illegal. -/
def runMovesCost : List Nat → List Direction → Option (List Nat × Nat)
  | b, [] => some (b, 0)
  | b, d :: ds =>
    match moveBoardCost b d with
    | none => none
    | some (b2, w) =>
      match runMovesCost b2 ds with
      | none => none
      | some (bf, c) => some (bf, w + c)

theorem moveBoardCost_valid {b : List Nat} {d : Direction}
    (hv : dirValid (b.indexOf 0 / 4) (b.indexOf 0 % 4) d) :
    moveBoardCost b d =
      some ((b.set (b.indexOf 0) (b.getD (((b.indexOf 0 : Int) + d.offset).toNat) 0)).set
          (((b.indexOf 0 : Int) + d.offset).toNat) (b.getD (b.indexOf 0) 0),
        tile_weight (b.getD (((b.indexOf 0 : Int) + d.offset).toNat) 0)) := by
  unfold moveBoardCost
  rw [if_pos hv]

theorem moveBoardCost_perm {b b2 : List Nat} {d : Direction} {w : Nat} (hb : IsPerm b)
    (h : moveBoardCost b d = some (b2, w)) : IsPerm b2 := by
  unfold moveBoardCost at h
  by_cases hv : dirValid (b.indexOf 0 / 4) (b.indexOf 0 % 4) d
  · rw [if_pos hv] at h
    obtain ⟨hz16, -⟩ := blank_facts hb
    obtain ⟨-, -, ht16, htz⟩ := target_facts hz16 d hv
    have := swap_board_perm hb hz16 ht16 (fun hh => htz hh.symm)
    rw [← (Prod.mk.injEq _ _ _ _).mp (Option.some.inj h) |>.1]
    exact this
  · rw [if_neg hv] at h
    exact absurd h (by simp)

theorem runMovesCost_perm : ∀ (ms : List Direction) {b bf : List Nat} {c : Nat},
    IsPerm b → runMovesCost b ms = some (bf, c) → IsPerm bf
  | [], b, bf, c, hb, h => by
    unfold runMovesCost at h
    obtain ⟨h1, h2⟩ := Prod.mk.injEq .. |>.mp (Option.some.inj h)
    rw [← h1]
    exact hb
  | d :: ds, b, bf, c, hb, h => by
    unfold runMovesCost at h
    split at h
    · simp at h
    · rename_i b2 w hm
      split at h
      · simp at h
      · rename_i bf2 c2 hr
        obtain ⟨h1, h2⟩ := Prod.mk.injEq .. |>.mp (Option.some.inj h)
        rw [← h1]
        exact runMovesCost_perm ds (moveBoardCost_perm hb hm) hr

end BPA

namespace BPA

theorem runMovesCost_cons_eq_some {b bf : List Nat} {c : Nat} {d : Direction}
    {ds : List Direction} (h : runMovesCost b (d :: ds) = some (bf, c)) :
    ∃ b2 w c2, moveBoardCost b d = some (b2, w) ∧ runMovesCost b2 ds = some (bf, c2) ∧
      c = w + c2 := by
  unfold runMovesCost at h
  split at h
  · simp at h
  · rename_i b2 w hm
    split at h
    · simp at h
    · rename_i bf2 c2 hr
      obtain ⟨h1, h2⟩ := Prod.mk.injEq .. |>.mp (Option.some.inj h)
      rw [h1] at hr
      exact ⟨b2, w, c2, hm, hr, h2.symm⟩

theorem runMovesCost_cons_of {b b2 bf : List Nat} {w c2 : Nat} {d : Direction}
    {ds : List Direction} (hm : moveBoardCost b d = some (b2, w))
    (hr : runMovesCost b2 ds = some (bf, c2)) :
    runMovesCost b (d :: ds) = some (bf, w + c2) := by
  unfold runMovesCost
  simp only [hm, hr]

theorem runMovesCost_nil_inv {b bf : List Nat} {c : Nat}
    (h : runMovesCost b [] = some (bf, c)) : bf = b ∧ c = 0 := by
  unfold runMovesCost at h
  obtain ⟨h1, h2⟩ := Prod.mk.injEq .. |>.mp (Option.some.inj h)
  exact ⟨h1.symm, h2.symm⟩

theorem runMovesCost_append : ∀ (ms1 : List Direction) {ms2 : List Direction}
    {b bm bf : List Nat} {c1 c2 : Nat},
    runMovesCost b ms1 = some (bm, c1) → runMovesCost bm ms2 = some (bf, c2) →
    runMovesCost b (ms1 ++ ms2) = some (bf, c1 + c2)
  | [], ms2, b, bm, bf, c1, c2, h1, h2 => by
    obtain ⟨hb, hc⟩ := runMovesCost_nil_inv h1
    subst hb
    subst hc
    simpa using h2
  | d :: ds, ms2, b, bm, bf, c1, c2, h1, h2 => by
    obtain ⟨b2, w, cr, hm, hr, hceq⟩ := runMovesCost_cons_eq_some h1
    have ih := runMovesCost_append ds hr h2
    have := runMovesCost_cons_of hm ih
    rw [List.cons_append]
    rw [this]
    congr 1
    congr 1
    omega

theorem runMovesCost_append_some : ∀ (ms1 : List Direction) {ms2 : List Direction}
    {b bf : List Nat} {c : Nat}, runMovesCost b (ms1 ++ ms2) = some (bf, c) →
    ∃ bm c1 c2, runMovesCost b ms1 = some (bm, c1) ∧ runMovesCost bm ms2 = some (bf, c2) ∧
      c = c1 + c2
  | [], ms2, b, bf, c, h => ⟨b, 0, c, rfl, by simpa using h, by omega⟩
  | d :: ds, ms2, b, bf, c, h => by
    rw [List.cons_append] at h
    obtain ⟨b2, w, c2, hm, hr, hceq⟩ := runMovesCost_cons_eq_some h
    obtain ⟨bm, cm1, cm2, hp1, hp2, hpc⟩ := runMovesCost_append_some ds hr
    exact ⟨bm, w + cm1, cm2, runMovesCost_cons_of hm hp1, hp2, by omega⟩

/-- Stepping through a successful run at position k: the k-th prefix runs, the
k-th move is legal from its endpoint, and the (k+1)-st prefix extends it. -/
theorem runMovesCost_take_succ {ms : List Direction} {b bf : List Nat} {c : Nat}
    (h : runMovesCost b ms = some (bf, c)) {k : Nat} (hk : k < ms.length) :
    ∃ bk ck bk1 w, runMovesCost b (ms.take k) = some (bk, ck) ∧
      moveBoardCost bk (ms.get ⟨k, hk⟩) = some (bk1, w) ∧
      runMovesCost b (ms.take (k + 1)) = some (bk1, ck + w) := by
  have hsplit : ms = ms.take k ++ ms.drop k := (List.take_append_drop k ms).symm
  rw [hsplit] at h
  obtain ⟨bk, ck, c2, hp1, hp2, hc⟩ := runMovesCost_append_some (ms.take k) h
  have hdrop : ms.drop k = ms.get ⟨k, hk⟩ :: ms.drop (k + 1) := by
    rw [List.get_eq_getElem]
    exact List.drop_eq_getElem_cons hk
  rw [hdrop] at hp2
  obtain ⟨bk1, w, c3, hm, hr, hc2⟩ := runMovesCost_cons_eq_some hp2
  refine ⟨bk, ck, bk1, w, hp1, hm, ?_⟩
  have htake : ms.take (k + 1) = ms.take k ++ [ms.get ⟨k, hk⟩] := by
    rw [List.get_eq_getElem, ← List.take_concat_get ms k hk, List.concat_eq_append]
  have hone : runMovesCost bk [ms.get ⟨k, hk⟩] = some (bk1, w + 0) :=
    runMovesCost_cons_of hm rfl
  have hfin := runMovesCost_append (ms.take k) hp1 hone
  rw [htake, hfin]
  simp

end BPA

namespace BPA

/-! ### Correspondence between node moves and board moves -/

theorem move_matches_board {s : PuzzleState} (hb : IsPerm s.board_state_1d) (hg : GoalOk s)
    (nid : Nat) {d : Direction}
    (hv : dirValid (s.board_state_1d.indexOf 0 / 4) (s.board_state_1d.indexOf 0 % 4) d) :
    ∃ s' b2 w, s.move nid d = some s' ∧ moveBoardCost s.board_state_1d d = some (b2, w) ∧
      s'.board_state_1d = b2 ∧ s'.g_of_n = s.g_of_n + (w : Int) ∧
      s'.depth = s.depth + 1 ∧ s'.parent_id = some s.id_no ∧ s'.goal_board = s.goal_board ∧
      s'.board_state = to_2d_array s'.board_state_1d ∧ s'.id_no = nid ∧ IsPerm b2 := by
  obtain ⟨v, s', hmv, hbt, hv0, hv16, hboard, hperm, hcost, hdepth, hparent, hgoal, h2d, hid⟩ :=
    move_spec hb hg nid d hv
  have hgetD : s.board_state_1d.getD (((s.board_state_1d.indexOf 0 : Int) + d.offset).toNat) 0
      = v := by
    rw [List.getD_eq_getElem?_getD, hbt]
    rfl
  refine ⟨s', _, _, hmv, moveBoardCost_valid hv, hboard, ?_, hdepth, hparent, hgoal, h2d,
    hid, ?_⟩
  · rw [hgetD]
    exact hcost
  · rw [← hboard]
    exact hperm

theorem validMoveList_mem_of {row col : Nat} {d : Direction} (hv : dirValid row col d) :
    d ∈ validMoveList row col := by
  rw [validMoveList_eq_filter]
  apply List.mem_filter.mpr
  refine ⟨?_, by simpa using hv⟩
  cases d <;> simp

/-! ### The popped entry is the least of the frontier -/

theorem keyLt_iff {a b : Int × Nat} :
    keyLt a b = true ↔ (a.1 < b.1 ∨ (a.1 = b.1 ∧ a.2 < b.2)) := by
  unfold keyLt
  simp

theorem keyLt_false_trans {a b c : Int × Nat} (h1 : keyLt b a = false)
    (h2 : keyLt c b = false) : keyLt c a = false := by
  rw [← Bool.not_eq_true] at h1 h2 ⊢
  rw [keyLt_iff] at h1 h2 ⊢
  obtain ⟨a1, a2⟩ := a
  obtain ⟨b1, b2⟩ := b
  obtain ⟨c1, c2⟩ := c
  simp only [not_or, not_and] at h1 h2 ⊢
  omega

theorem keyLt_asymm_false {a b : Int × Nat} (h : keyLt a b = true) : keyLt b a = false := by
  rw [← Bool.not_eq_true]
  rw [keyLt_iff] at h ⊢
  obtain ⟨a1, a2⟩ := a
  obtain ⟨b1, b2⟩ := b
  simp only [not_or, not_and] at h ⊢
  omega

theorem popMin_spec : ∀ (l : List Entry) (e : Entry) (rest : List Entry),
    popMin l = some (e, rest) →
    (∃ l1 l2, l = l1 ++ e :: l2 ∧ rest = l1 ++ l2) ∧
      ∀ w ∈ l, keyLt (w.1, w.2.1) (e.1, e.2.1) = false
  | [], e, rest, h => by simp [popMin] at h
  | e0 :: r, e, rest, h => by
    unfold popMin at h
    cases hrec : popMin r with
    | none =>
      rw [hrec] at h
      obtain ⟨h1, h2⟩ := Prod.mk.injEq .. |>.mp (Option.some.inj h)
      have hr : r = [] := by
        cases r with
        | nil => rfl
        | cons x xs =>
          unfold popMin at hrec
          cases h3 : popMin xs with
          | none =>
            rw [h3] at hrec
            simp at hrec
          | some pr =>
            rw [h3] at hrec
            obtain ⟨a, b⟩ := pr
            by_cases hk : keyLt (a.1, a.2.1) (x.1, x.2.1) <;> simp [hk] at hrec
      subst hr
      refine ⟨⟨[], [], by rw [← h1]; rfl, by rw [← h2]; rfl⟩, ?_⟩
      intro w hw
      rw [List.mem_singleton] at hw
      subst hw
      rw [← h1, ← Bool.not_eq_true, keyLt_iff]
      simp only [not_or, not_and]
      omega
    | some pr =>
      obtain ⟨m, rest2⟩ := pr
      rw [hrec] at h
      have h' : (if keyLt (m.1, m.2.1) (e0.1, e0.2.1) = true then some (m, e0 :: rest2)
          else some (e0, r)) = some (e, rest) := h
      obtain ⟨⟨l1, l2, hdec, hrdec⟩, hmin⟩ := popMin_spec r m rest2 hrec
      by_cases hk : keyLt (m.1, m.2.1) (e0.1, e0.2.1) = true
      · rw [if_pos hk] at h'
        obtain ⟨h1, h2⟩ := Prod.mk.injEq .. |>.mp (Option.some.inj h')
        subst h1
        refine ⟨⟨e0 :: l1, l2, by rw [hdec]; rfl, by rw [← h2, hrdec]; rfl⟩, ?_⟩
        intro w hw
        rcases List.mem_cons.mp hw with hw1 | hw2
        · subst hw1
          exact keyLt_asymm_false hk
        · exact hmin w hw2
      · rw [if_neg hk] at h'
        obtain ⟨h1, h2⟩ := Prod.mk.injEq .. |>.mp (Option.some.inj h')
        subst h1
        refine ⟨⟨[], r, rfl, h2.symm⟩, ?_⟩
        intro w hw
        rcases List.mem_cons.mp hw with hw1 | hw2
        · subst hw1
          rw [← Bool.not_eq_true, keyLt_iff]
          simp only [not_or, not_and]
          omega
        · exact keyLt_false_trans (Bool.eq_false_iff.mpr hk) (hmin w hw2)

end BPA

namespace BPA

/-! ### Well-formed parent chains and path reconstruction -/

/-- A node has a well-formed parent chain in the given closed list: either it
is a root (depth 0), or its parent is located in the closed list by
identifier, one depth level down, with a well-formed chain of its own. -/
inductive Chain (closed : List PuzzleState) : PuzzleState → Prop
  | root (s : PuzzleState) (h : s.depth = 0) : Chain closed s
  | step (s p : PuzzleState) (hp : get_parent_state s closed = some p)
      (hd : p.depth + 1 = s.depth) (hc : Chain closed p) : Chain closed s

theorem get_parent_state_append {s p : PuzzleState} {closed : List PuzzleState}
    (h : get_parent_state s closed = some p) (extra : List PuzzleState) :
    get_parent_state s (closed ++ extra) = some p := by
  unfold get_parent_state at h ⊢
  rw [List.find?_append, h]
  rfl

theorem Chain.append {closed : List PuzzleState} {s : PuzzleState} (h : Chain closed s)
    (extra : List PuzzleState) : Chain (closed ++ extra) s := by
  induction h with
  | root s h => exact Chain.root s h
  | step s p hp hd hc ih => exact Chain.step s p (get_parent_state_append hp extra) hd ih

theorem chain_pathWalk {closed : List PuzzleState} {s : PuzzleState} (hc : Chain closed s) :
    ∀ (fuel : Nat), s.depth ≤ fuel → ∀ (acc : List PuzzleState),
      ∃ res, pathWalk closed fuel s acc = some res ∧ res.length = acc.length + s.depth := by
  induction hc with
  | root s h =>
    intro fuel hf acc
    refine ⟨acc, ?_, by omega⟩
    unfold pathWalk
    rw [if_pos h]
  | step s p hp hd hc ih =>
    intro fuel hf acc
    have hdep : ¬ s.depth = 0 := by omega
    cases fuel with
    | zero => omega
    | succ f =>
      obtain ⟨res, hres, hlen⟩ := ih f (by omega) (acc ++ [p])
      refine ⟨res, ?_, ?_⟩
      · unfold pathWalk
        rw [if_neg hdep]
        simp only [hp]
        exact hres
      · rw [hlen]
        simp
        omega

/-- A node with a well-formed chain reconstructs to a path of length
depth + 1 (the node itself plus one ancestor per move). -/
theorem chain_get_state_path {closed : List PuzzleState} {s : PuzzleState}
    (hc : Chain closed s) :
    ∃ path, get_state_path s closed = some path ∧ path.length = s.depth + 1 := by
  obtain ⟨res, hres, hlen⟩ := chain_pathWalk hc s.depth (Nat.le_refl _) [s]
  exact ⟨res, hres, by simpa [Nat.add_comm] using hlen⟩

end BPA

namespace BPA

theorem moveBoardCost_some_valid {b : List Nat} {d : Direction} {b2 : List Nat} {w : Nat}
    (h : moveBoardCost b d = some (b2, w)) :
    dirValid (b.indexOf 0 / 4) (b.indexOf 0 % 4) d := by
  unfold moveBoardCost at h
  by_cases hv : dirValid (b.indexOf 0 / 4) (b.indexOf 0 % 4) d
  · exact hv
  · rw [if_neg hv] at h
    exact absurd h (by simp)

theorem keyLt_false_le {a b : Int × Nat} (h : keyLt b a = false) : a.1 ≤ b.1 := by
  rw [← Bool.not_eq_true, keyLt_iff] at h
  obtain ⟨a1, a2⟩ := a
  obtain ⟨b1, b2⟩ := b
  simp only [not_or, not_and] at h
  omega

theorem get_parent_finds {child e : PuzzleState} {closed : List PuzzleState}
    (hpid : child.parent_id = some e.id_no)
    (hinj : ∀ s ∈ closed, s.id_no = e.id_no → s = e) :
    get_parent_state child (closed ++ [e]) = some e := by
  unfold get_parent_state
  rw [List.find?_append]
  cases hf : closed.find? (fun cs => child.parent_id == some cs.id_no) with
  | none =>
    have hpred : (child.parent_id == some e.id_no) = true := by
      rw [hpid]
      simp
    have h5 : List.find? (fun cs => child.parent_id == some cs.id_no) [e] = some e :=
      List.find?_cons_of_pos _ hpred
    rw [h5]
    rfl
  | some s =>
    have hs := List.find?_some hf
    have hmem := List.mem_of_find?_eq_some hf
    have hse : s = e := by
      apply hinj s hmem
      have h6 : (child.parent_id == some s.id_no) = true := hs
      rw [hpid] at h6
      have h7 : e.id_no = s.id_no := by simpa using h6
      exact h7.symm
    rw [hse]
    rfl

/-- Full description of the children produced by a successful expansion: one
child per valid direction with the swapped board, incremented depth,
weight-incremented cost, parent link, inherited goal, recomputed view and
consecutive fresh identifiers; and conversely a child for every valid
direction. -/
theorem expand_children_spec {s : PuzzleState} (hb : IsPerm s.board_state_1d) (hg : GoalOk s)
    (h2d : s.board_state = to_2d_array s.board_state_1d) {nid : Nat} {exps : List PuzzleState}
    (hexp : s.expand nid = some exps) :
    (∀ i (hl : i < exps.length), ∃ d b2 w,
      dirValid (s.board_state_1d.indexOf 0 / 4) (s.board_state_1d.indexOf 0 % 4) d ∧
      moveBoardCost s.board_state_1d d = some (b2, w) ∧
      (exps.get ⟨i, hl⟩).board_state_1d = b2 ∧
      (exps.get ⟨i, hl⟩).g_of_n = s.g_of_n + (w : Int) ∧
      (exps.get ⟨i, hl⟩).depth = s.depth + 1 ∧
      (exps.get ⟨i, hl⟩).parent_id = some s.id_no ∧
      (exps.get ⟨i, hl⟩).goal_board = s.goal_board ∧
      (exps.get ⟨i, hl⟩).board_state = to_2d_array (exps.get ⟨i, hl⟩).board_state_1d ∧
      (exps.get ⟨i, hl⟩).id_no = nid + i ∧ IsPerm b2) ∧
    (∀ d, dirValid (s.board_state_1d.indexOf 0 / 4) (s.board_state_1d.indexOf 0 % 4) d →
      ∀ b2 w, moveBoardCost s.board_state_1d d = some (b2, w) →
      ∃ s2 ∈ exps, s2.board_state_1d = b2 ∧ s2.depth = s.depth + 1) := by
  obtain ⟨l, hl, hlen, hpt⟩ := expand_spec hb hg h2d nid
  have hleq : l = exps := Option.some.inj (hl ▸ hexp)
  subst hleq
  constructor
  · intro i hli
    have hi : i < (validMoveList (s.board_state_1d.indexOf 0 / 4)
        (s.board_state_1d.indexOf 0 % 4)).length := by omega
    have hmove := hpt i hi hli
    have hvd := mem_validMoveList (List.get_mem _ i hi)
    obtain ⟨s', b2, w, hmv, hmb, hbd, hcost, hdepth, hparent, hgoal, h2d2, hid, hperm⟩ :=
      move_matches_board hb hg (nid + i) hvd
    rw [hmv] at hmove
    have hs2eq : s' = l.get ⟨i, hli⟩ := Option.some.inj hmove
    subst hs2eq
    exact ⟨_, b2, w, hvd, hmb, hbd, hcost, hdepth, hparent, hgoal, h2d2, hid, hperm⟩
  · intro d hvd b2 w hmb
    obtain ⟨⟨j, hj⟩, hget⟩ := List.mem_iff_get.mp (validMoveList_mem_of hvd)
    have hlj : j < l.length := by omega
    have hmove := hpt j hj hlj
    rw [hget] at hmove
    obtain ⟨s', b2x, wx, hmv, hmbx, hbd, -, hdepth, -, -, -, -, -⟩ :=
      move_matches_board hb hg (nid + j) hvd
    rw [hmv] at hmove
    have hs2eq : s' = l.get ⟨j, hlj⟩ := Option.some.inj hmove
    subst hs2eq
    obtain ⟨hb2, hw⟩ := Prod.mk.injEq .. |>.mp (Option.some.inj (hmbx.symm.trans hmb))
    refine ⟨l.get ⟨j, hlj⟩, List.get_mem _ j hlj, ?_, hdepth⟩
    rw [hbd, hb2]

end BPA

namespace BPA

/-! ### The BFS loop invariant -/

/-- Soundness data of a single search node: its board is a permutation, its
goal reference is the search goal, its 2D view is derived from its board,
and it corresponds to an actual move sequence from the start board, with
depth the number of moves and g the accumulated cost. -/
structure NodeSound (start goal : List Nat) (s : PuzzleState) : Prop where
  perm : IsPerm s.board_state_1d
  goalref : s.goal_board = some goal
  view : s.board_state = to_2d_array s.board_state_1d
  run : ∃ ms c, runMovesCost start ms = some (s.board_state_1d, c) ∧
    s.depth = ms.length ∧ s.g_of_n = (c : Int)

/-- The nodes carried by the frontier entries. -/
def openNodes (st : LoopState) : List PuzzleState := st.open_list.map (fun e => e.2.2)

/-- All nodes the search currently holds. -/
def allNodes (st : LoopState) : List PuzzleState := openNodes st ++ st.closed_list

/-- The invariant of `solve`'s loop under the BFS strategy: every frontier
entry is sound with its depth as priority and its node's identifier as key;
closed nodes never carry the goal board; identifiers determine nodes and are
below the fresh counter; every node's parent chain reconstructs inside the
closed list; and every legal move sequence from the start board has a prefix
realised on the frontier or its endpoint realised in the closed list. -/
structure Inv (start goal : List Nat) (st : LoopState) : Prop where
  sound_open : ∀ e ∈ st.open_list, NodeSound start goal e.2.2 ∧
    e.1 = (e.2.2.depth : Int) ∧ e.2.1 = e.2.2.id_no
  sound_closed : ∀ s ∈ st.closed_list, s.board_state_1d ≠ goal
  ids_inj : ∀ s1 ∈ allNodes st, ∀ s2 ∈ allNodes st, s1.id_no = s2.id_no → s1 = s2
  ids_lt : ∀ s ∈ allNodes st, s.id_no < st.next_id
  chains : ∀ s ∈ allNodes st, Chain st.closed_list s
  complete : ∀ ms b2 c, runMovesCost start ms = some (b2, c) →
    (∃ k, k ≤ ms.length ∧ ∃ e ∈ st.open_list, ∃ ck,
        runMovesCost start (ms.take k) = some (e.2.2.board_state_1d, ck) ∧ e.2.2.depth = k) ∨
    (∃ s ∈ st.closed_list, s.board_state_1d = b2)

/-- The invariant holds at the initial loop state built by `solve`. -/
theorem inv_init (start goal : List Nat) (hs : IsPerm start) (st0 : PuzzleState)
    (hb : st0.board_state_1d = start) (h2d : st0.board_state = to_2d_array start)
    (hgb : st0.goal_board = some goal) (hdep : st0.depth = 0) (hgn : st0.g_of_n = 0)
    (hid : st0.id_no = 1) :
    Inv start goal
      { open_list := [(0, st0.id_no, st0)], closed_list := [], added_to_open_list := 0,
        next_id := 2 } := by
  have hallmem : ∀ s, s ∈ allNodes
      { open_list := [(0, st0.id_no, st0)], closed_list := ([] : List PuzzleState),
        added_to_open_list := 0, next_id := 2 } → s = st0 := by
    intro s hmem
    unfold allNodes openNodes at hmem
    simpa using hmem
  refine ⟨?_, ?_, ?_, ?_, ?_, ?_⟩
  · intro e he
    rw [List.mem_singleton] at he
    subst he
    refine ⟨⟨hb ▸ hs, hgb, hb ▸ h2d, [], 0, by rw [hb]; rfl, by rw [hdep]; rfl, by rw [hgn]; rfl⟩,
      by rw [hdep]; rfl, rfl⟩
  · intro s hmem
    simp at hmem
  · intro s1 h1 s2 h2 _
    rw [hallmem s1 h1, hallmem s2 h2]
  · intro s hmem
    rw [hallmem s hmem, hid]
    show (1 : Nat) < 2
    omega
  · intro s hmem
    rw [hallmem s hmem]
    exact Chain.root st0 hdep
  · intro ms b2 c hrun
    left
    refine ⟨0, by omega, (0, st0.id_no, st0), List.mem_singleton_self _, 0, ?_, hdep⟩
    rw [List.take_zero, hb]
    rfl

end BPA

namespace BPA

theorem allNodes_step_mem {rest : List Entry} {exps closed : List PuzzleState}
    {n0 : PuzzleState} {m : Method} {a b : Nat} {s : PuzzleState} :
    s ∈ allNodes
      { open_list := rest ++ exps.map (fun ns => (priorityOf m ns, ns.id_no, ns)),
        closed_list := closed ++ [n0], added_to_open_list := a, next_id := b } ↔
      ((∃ w ∈ rest, s = w.2.2) ∨ s ∈ exps ∨ s ∈ closed ∨ s = n0) := by
  constructor
  · intro h
    rcases List.mem_append.mp h with h | h
    · rcases List.mem_map.mp h with ⟨w, hw, hw2⟩
      rcases List.mem_append.mp hw with hw | hw
      · exact Or.inl ⟨w, hw, hw2.symm⟩
      · rcases List.mem_map.mp hw with ⟨ns, hns, hfw⟩
        have hws : w.2.2 = ns := by rw [← hfw]
        rw [← hw2, hws]
        exact Or.inr (Or.inl hns)
    · rcases List.mem_append.mp h with h | h
      · exact Or.inr (Or.inr (Or.inl h))
      · exact Or.inr (Or.inr (Or.inr (List.mem_singleton.mp h)))
  · intro h
    rcases h with ⟨w, hw, hw2⟩ | h | h | h
    · exact List.mem_append.mpr (Or.inl (List.mem_map.mpr
        ⟨w, List.mem_append.mpr (Or.inl hw), hw2.symm⟩))
    · exact List.mem_append.mpr (Or.inl (List.mem_map.mpr
        ⟨(priorityOf m s, s.id_no, s),
          List.mem_append.mpr (Or.inr (List.mem_map.mpr ⟨s, h, rfl⟩)), rfl⟩))
    · exact List.mem_append.mpr (Or.inr (List.mem_append.mpr (Or.inl h)))
    · exact List.mem_append.mpr (Or.inr (List.mem_append.mpr
        (Or.inr (List.mem_singleton.mpr h))))

theorem mem_allNodes_of_open {st : LoopState} {e : Entry} (h : e ∈ st.open_list) :
    e.2.2 ∈ allNodes st := by
  unfold allNodes openNodes
  exact List.mem_append.mpr (Or.inl (List.mem_map.mpr ⟨e, h, rfl⟩))

theorem mem_allNodes_of_closed {st : LoopState} {s : PuzzleState} (h : s ∈ st.closed_list) :
    s ∈ allNodes st := by
  unfold allNodes
  exact List.mem_append.mpr (Or.inr h)

/-- One expansion step of the loop preserves the BFS invariant. -/
theorem inv_step {start goal : List Nat} (hgl : IsPerm goal) {st : LoopState}
    (inv : Inv start goal st) {e : Entry} {rest : List Entry}
    (hpop : popMin st.open_list = some (e, rest))
    (hgoal : ¬ e.2.2.board_state_1d = goal) {exps : List PuzzleState}
    (hexp : e.2.2.expand st.next_id = some exps) :
    Inv start goal
      { open_list := rest ++ exps.map (fun ns => (priorityOf .bfs ns, ns.id_no, ns)),
        closed_list := st.closed_list ++ [e.2.2],
        added_to_open_list := st.added_to_open_list + exps.length,
        next_id := st.next_id + exps.length } := by
  obtain ⟨⟨l1, l2, hdec, hrdec⟩, hmin⟩ := popMin_spec _ _ _ hpop
  have he_mem : e ∈ st.open_list := by
    rw [hdec]
    exact List.mem_append.mpr (Or.inr (List.mem_cons_self _ _))
  obtain ⟨hNsound, he_pri, he_id⟩ := inv.sound_open e he_mem
  have hgoalok : GoalOk e.2.2 := Or.inr ⟨goal, hNsound.goalref, hgl⟩
  obtain ⟨hchild, hdirchild⟩ := expand_children_spec hNsound.perm hgoalok hNsound.view hexp
  have hrest_sub : ∀ w ∈ rest, w ∈ st.open_list := by
    intro w hw
    rw [hrdec] at hw
    rw [hdec]
    rcases List.mem_append.mp hw with h | h
    · exact List.mem_append.mpr (Or.inl h)
    · exact List.mem_append.mpr (Or.inr (List.mem_cons_of_mem _ h))
  have hchild_mem : ∀ s ∈ exps, ∃ i, ∃ hl : i < exps.length, s = exps.get ⟨i, hl⟩ := by
    intro s hs
    obtain ⟨⟨i, hl⟩, hget⟩ := List.mem_iff_get.mp hs
    exact ⟨i, hl, hget.symm⟩
  have hchild_id_ge : ∀ s ∈ exps, st.next_id ≤ s.id_no ∧ s.id_no < st.next_id + exps.length := by
    intro s hs
    obtain ⟨i, hl, hseq⟩ := hchild_mem s hs
    obtain ⟨d, b2, w, -, -, -, -, -, -, -, -, hid, -⟩ := hchild i hl
    rw [hseq, hid]
    omega
  have hold_mem : ∀ s, ((∃ w ∈ rest, s = w.2.2) ∨ s ∈ st.closed_list ∨ s = e.2.2) →
      s ∈ allNodes st := by
    intro s hs
    rcases hs with ⟨w, hw, hw2⟩ | hs | hs
    · rw [hw2]
      exact mem_allNodes_of_open (hrest_sub w hw)
    · exact mem_allNodes_of_closed hs
    · rw [hs]
      exact mem_allNodes_of_open he_mem
  refine ⟨?_, ?_, ?_, ?_, ?_, ?_⟩
  · -- sound_open
    intro w hw
    rcases List.mem_append.mp hw with hwr | hwm
    · exact inv.sound_open w (hrest_sub w hwr)
    · obtain ⟨ns, hns, hfw⟩ := List.mem_map.mp hwm
      obtain ⟨i, hl, hseq⟩ := hchild_mem ns hns
      obtain ⟨d, b2, cw, hvd, hmb, hbd, hcost, hdepth, hparent, hgoalb, h2d2, hid, hperm⟩ :=
        hchild i hl
      rw [← hfw]
      obtain ⟨ms, c, hrun, hdep, hg⟩ := hNsound.run
      have hone : runMovesCost e.2.2.board_state_1d [d] = some (b2, cw + 0) :=
        runMovesCost_cons_of hmb rfl
      have htot := runMovesCost_append ms hrun hone
      refine ⟨⟨?_, ?_, ?_, ms ++ [d], c + (cw + 0), ?_, ?_, ?_⟩, rfl, rfl⟩
      · rw [hseq, hbd]
        exact hperm
      · rw [hseq, hgoalb]
        exact hNsound.goalref
      · rw [hseq]
        exact h2d2
      · rw [hseq, hbd]
        exact htot
      · rw [hseq, hdepth, hdep]
        simp
      · rw [hseq, hcost, hg]
        push_cast
        ring
  · -- sound_closed
    intro s hs
    rcases List.mem_append.mp hs with hs | hs
    · exact inv.sound_closed s hs
    · rw [List.mem_singleton] at hs
      rw [hs]
      exact hgoal
  · -- ids_inj
    intro s1 h1 s2 h2 hideq
    rw [allNodes_step_mem] at h1 h2
    have hclass : ∀ s, ((∃ w ∈ rest, s = w.2.2) ∨ s ∈ exps ∨ s ∈ st.closed_list ∨ s = e.2.2) →
        s ∈ allNodes st ∨ s ∈ exps := by
      intro s hs
      rcases hs with hs | hs | hs | hs
      · exact Or.inl (hold_mem s (Or.inl hs))
      · exact Or.inr hs
      · exact Or.inl (hold_mem s (Or.inr (Or.inl hs)))
      · exact Or.inl (hold_mem s (Or.inr (Or.inr hs)))
    rcases hclass s1 h1 with ha1 | ha1 <;> rcases hclass s2 h2 with ha2 | ha2
    · exact inv.ids_inj s1 ha1 s2 ha2 hideq
    · exact absurd hideq (by
        have hx := (hchild_id_ge s2 ha2).1
        have hy := inv.ids_lt s1 ha1
        omega)
    · exact absurd hideq (by
        have hx := (hchild_id_ge s1 ha1).1
        have hy := inv.ids_lt s2 ha2
        omega)
    · obtain ⟨i, hli, hseq1⟩ := hchild_mem s1 ha1
      obtain ⟨j, hlj, hseq2⟩ := hchild_mem s2 ha2
      obtain ⟨d1, b21, w1, -, -, -, -, -, -, -, -, hid1, -⟩ := hchild i hli
      obtain ⟨d2, b22, w2, -, -, -, -, -, -, -, -, hid2, -⟩ := hchild j hlj
      have hij : i = j := by
        rw [hseq1, hid1] at hideq
        rw [hseq2, hid2] at hideq
        omega
      subst hij
      rw [hseq1, hseq2]
  · -- ids_lt
    intro s hs
    rw [allNodes_step_mem] at hs
    rcases hs with hs | hs | hs | hs
    · have := inv.ids_lt s (hold_mem s (Or.inl hs))
      show s.id_no < st.next_id + exps.length
      omega
    · exact (hchild_id_ge s hs).2
    · have := inv.ids_lt s (hold_mem s (Or.inr (Or.inl hs)))
      show s.id_no < st.next_id + exps.length
      omega
    · have := inv.ids_lt s (hold_mem s (Or.inr (Or.inr hs)))
      show s.id_no < st.next_id + exps.length
      omega
  · -- chains
    intro s hs
    rw [allNodes_step_mem] at hs
    have hNchain : Chain (st.closed_list ++ [e.2.2]) e.2.2 :=
      (inv.chains e.2.2 (mem_allNodes_of_open he_mem)).append [e.2.2]
    rcases hs with hs | hs | hs | hs
    · exact (inv.chains s (hold_mem s (Or.inl hs))).append [e.2.2]
    · obtain ⟨i, hl, hseq⟩ := hchild_mem s hs
      obtain ⟨d, b2, w, -, -, -, -, hdepth, hparent, -, -, -, -⟩ := hchild i hl
      have hinj : ∀ s2 ∈ st.closed_list, s2.id_no = e.2.2.id_no → s2 = e.2.2 := by
        intro s2 hs2 hid2
        exact inv.ids_inj s2 (mem_allNodes_of_closed hs2) e.2.2
          (mem_allNodes_of_open he_mem) hid2
      have hfind := get_parent_finds (hseq ▸ hparent) hinj
      exact Chain.step s e.2.2 hfind (by rw [hseq, hdepth]) hNchain
    · exact (inv.chains s (hold_mem s (Or.inr (Or.inl hs)))).append [e.2.2]
    · rw [hs]
      exact hNchain
  · -- completeness
    intro ms b2 c hrun2
    rcases inv.complete ms b2 c hrun2 with ⟨k, hk, w, hw_mem, ck, hpk, hwd⟩ | ⟨s, hs, hsb⟩
    · rw [hdec] at hw_mem
      have hw_cases : w ∈ rest ∨ w = e := by
        rw [hrdec]
        rcases List.mem_append.mp hw_mem with h | h
        · exact Or.inl (List.mem_append.mpr (Or.inl h))
        · rcases List.mem_cons.mp h with h | h
          · exact Or.inr h
          · exact Or.inl (List.mem_append.mpr (Or.inr h))
      rcases hw_cases with hwr | hwe
      · exact Or.inl ⟨k, hk, w, List.mem_append.mpr (Or.inl hwr), ck, hpk, hwd⟩
      · subst hwe
        by_cases hkfull : k = ms.length
        · -- the full sequence was the popped node: its endpoint is now closed
          right
          refine ⟨w.2.2, List.mem_append.mpr (Or.inr (List.mem_singleton_self _)), ?_⟩
          rw [hkfull, List.take_length] at hpk
          have := (Prod.mk.injEq .. |>.mp (Option.some.inj (hpk.symm.trans hrun2))).1
          exact this
        · -- extend the realised prefix by one move through the pushed child
          have hklt : k < ms.length := by omega
          obtain ⟨bk, ck2, bk1, w0, hpk2, hmstep, hpk3⟩ := runMovesCost_take_succ hrun2 hklt
          have hbk : bk = w.2.2.board_state_1d ∧ ck2 = ck := by
            have := Prod.mk.injEq .. |>.mp (Option.some.inj (hpk2.symm.trans hpk))
            exact ⟨this.1.symm.symm, this.2⟩
          rw [hbk.1] at hmstep
          have hvd := moveBoardCost_some_valid hmstep
          obtain ⟨s2, hs2mem, hs2b, hs2d⟩ := hdirchild _ hvd bk1 w0 hmstep
          left
          refine ⟨k + 1, by omega,
            (priorityOf .bfs s2, s2.id_no, s2), ?_, ck2 + w0, ?_, ?_⟩
          · exact List.mem_append.mpr (Or.inr (List.mem_map.mpr ⟨s2, hs2mem, rfl⟩))
          · show runMovesCost start (ms.take (k + 1)) = some (s2.board_state_1d, ck2 + w0)
            rw [hs2b]
            exact hpk3
          · show s2.depth = k + 1
            rw [hs2d, hwd]
    · exact Or.inr ⟨s, List.mem_append.mpr (Or.inl hs), hsb⟩

/-- Under the BFS invariant, a successful run of the search loop returns a
path realising some move sequence from the start board to the goal board,
of minimal length among all move sequences reaching the goal. -/
theorem solveLoop_bfs_min {start goal : List Nat} (hgl : IsPerm goal) :
    ∀ (fuel : Nat) (st : LoopState), Inv start goal st →
      ∀ res : SolveResult, solveLoop goal .bfs fuel st = some (.ok res) →
      (∃ ms c, runMovesCost start ms = some (goal, c) ∧ ms.length + 1 = res.path.length) ∧
      (∀ ms2 c2, runMovesCost start ms2 = some (goal, c2) → res.path.length ≤ ms2.length + 1)
  | 0, st, inv, res, h => by
    rw [solveLoop_zero] at h
    exact absurd h (by simp)
  | fuel + 1, st, inv, res, h => by
    cases hpop : popMin st.open_list with
    | none =>
      rw [solveLoop_succ_popNone hpop] at h
      simp at h
    | some pr =>
      obtain ⟨e, rest⟩ := pr
      by_cases hgoal : e.2.2.board_state_1d = goal
      · -- the goal was popped: its depth is least on the frontier, and every
        -- move sequence reaching the goal has a frontier prefix at least as deep
        obtain ⟨⟨l1, l2, hdec, -⟩, hmin⟩ := popMin_spec _ _ _ hpop
        have he_mem : e ∈ st.open_list := by
          rw [hdec]
          exact List.mem_append.mpr (Or.inr (List.mem_cons_self _ _))
        obtain ⟨hNsound, he_pri, -⟩ := inv.sound_open e he_mem
        have hchain := inv.chains e.2.2 (mem_allNodes_of_open he_mem)
        obtain ⟨path, hpath, hplen⟩ := chain_get_state_path hchain
        rw [solveLoop_succ_goal_found hpop hgoal hpath] at h
        have hres := Except.ok.inj (Option.some.inj h)
        have hrespath : res.path = path := by rw [← hres]
        obtain ⟨ms, c, hrun, hdep, -⟩ := hNsound.run
        constructor
        · exact ⟨ms, c, by rw [← hgoal]; exact hrun, by rw [hrespath, hplen, hdep]⟩
        · intro ms2 c2 hrun2
          rcases inv.complete ms2 goal c2 hrun2 with ⟨k, hk, w, hw, ck, -, hwd⟩ | ⟨s, hs, hsb⟩
          · have hle : e.1 ≤ w.1 := keyLt_false_le (hmin w hw)
            have hw_pri := (inv.sound_open w hw).2.1
            have hdd : e.2.2.depth ≤ w.2.2.depth := by
              rw [he_pri, hw_pri] at hle
              exact_mod_cast hle
            rw [hrespath, hplen]
            omega
          · exact absurd hsb (inv.sound_closed s hs)
      · cases hexp : e.2.2.expand st.next_id with
        | none =>
          rw [solveLoop_succ_expandNone hpop hgoal hexp] at h
          simp at h
        | some exps =>
          rw [solveLoop_succ_expand hpop hgoal hexp] at h
          exact solveLoop_bfs_min hgl fuel _ (inv_step hgl inv hpop hgoal hexp) res h

/-- BFS move-count minimality for `solve`: on permutation start and goal
boards, a successful BFS run reports a path that realises an actual move
sequence from start to goal and whose length (path length = moves + 1) is
minimal among all move sequences reaching the goal. -/
theorem solveBfs_min_moves {start goal : List Nat} (hs : IsPerm start) (hgl : IsPerm goal)
    {fuel : Nat} {res : SolveResult}
    (h : solve start goal .bfs fuel = some (.ok res)) :
    (∃ ms c, runMovesCost start ms = some (goal, c) ∧ ms.length + 1 = res.path.length) ∧
    (∀ ms2 c2, runMovesCost start ms2 = some (goal, c2) → res.path.length ≤ ms2.length + 1) := by
  obtain ⟨g0, hg0, -⟩ := mk_some hgl (Or.inl rfl) none 0 0 0
  obtain ⟨s0, hs0, hb, h2d, hgb, -, hdep, hgn, hid⟩ :=
    mk_some hs (Or.inr ⟨goal, rfl, hgl⟩) none 0 0 1
  have hsolve : solve start goal .bfs fuel = solveLoop goal .bfs fuel
      { open_list := [(0, s0.id_no, s0)], closed_list := [],
        added_to_open_list := 0, next_id := 2 } := by
    unfold solve
    rw [hg0, hs0]
  rw [hsolve] at h
  exact solveLoop_bfs_min hgl fuel _
    (inv_init start goal hs s0 hb h2d hgb hdep hgn hid) res h

end BPA
